import Mathlib

/-!
Verification of the knapsack heuristics engine in `etapas_po_4.py`.

Modelling conventions:
* Python floats are modelled by exact rationals (`ℚ`); the numeric literals of
  the source (`1e-12`, `0.5`, ...) are carried over as exact rationals.
* `numpy` 1-d arrays are modelled by `List ℚ`; reading `a[i]` is `getq a i`
  (out-of-range reads do not occur on the paths exercised here).
* `np.argsort(-(valores / np.maximum(pesos, 1e-12)))` (default kind, i.e.
  introsort) guarantees only that the returned index list is a permutation of
  `range n` listing indices in descending clamped-ratio order; the relative
  order of tied indices is NOT specified (the default sort is not stable).
  Solvers therefore take the order list as an explicit parameter, and theorems
  assume exactly the contract `OrdemRazao`.
* The `tempo_ms` timing fields (wall-clock measurements) are omitted from the
  model; no claim treated here mentions them.
-/

namespace EtapasPO4


/-- The epsilon floor `1e-12` used by the source in ratio clamping and in the
relaxation's early-exit guard. -/
def eps : ℚ := 1 / 10 ^ 12

/-- Read element `i` of an array, `a[i]` (0 when out of range). -/
def getq (xs : List ℚ) (i : Nat) : ℚ := xs.getD i 0

/-- `np.dot` of two equal-length vectors. -/
def dot (xs ys : List ℚ) : ℚ := (List.zipWith (· * ·) xs ys).sum

/-- `avaliar(selecao, valores, pesos)`: total value and total weight of a
selection (source lines 96–99). -/
def avaliar (selecao valores pesos : List ℚ) : ℚ × ℚ :=
  (dot selecao valores, dot selecao pesos)

/-- The clamped ratio `valores[i] / max(pesos[i], 1e-12)` used as sort key. -/
def razao (valores pesos : List ℚ) (i : Nat) : ℚ :=
  getq valores i / max (getq pesos i) eps

/-- Contract of `ordem = np.argsort(-(valores / np.maximum(pesos, 1e-12)))`:
a permutation of `range n` with clamped ratios in descending order.  Tie
order is unspecified by the default (unstable) sort. -/
def OrdemRazao (valores pesos : List ℚ) (ordem : List Nat) : Prop :=
  ordem.Perm (List.range valores.length) ∧
    ordem.Pairwise (fun i j => razao valores pesos j ≤ razao valores pesos i)

instance (valores pesos : List ℚ) (ordem : List Nat) :
    Decidable (OrdemRazao valores pesos ordem) := by
  unfold OrdemRazao; infer_instance

/-- A solution record (`Solucao` dataclass, source lines 87–93); the
`tempo_ms` timing field is not modelled. -/
structure Solucao where
  selecao : List ℚ
  valor : ℚ
  peso : ℚ
  metodo : String
deriving DecidableEq, Repr

/-- Entries of a selection vector are all 0 or 1. -/
def Sel01 (sel : List ℚ) : Prop := ∀ q ∈ sel, q = 0 ∨ q = 1

instance (sel : List ℚ) : Decidable (Sel01 sel) := by
  unfold Sel01; infer_instance

/-- Sum of `f` over an index list. -/
def sumOver (l : List Nat) (f : Nat → ℚ) : ℚ := (l.map f).sum

/-! ### `melhor_item_que_cabe` (source lines 102–113) -/

/-- The scan of `melhor_item_que_cabe`: running best `(index, value)` after
examining the given indices in order.  `none` plays the role of the initial
`melhor_valor = -np.inf`, `melhor_idx = -1` (any finite value beats `-inf`). -/
def melhorLoop (valores pesos : List ℚ) (capacidade : ℚ) :
    List Nat → Option (Nat × ℚ) → Option (Nat × ℚ)
  | [], best => best
  | i :: rest, best =>
    let cond :=
      decide (getq pesos i ≤ capacidade) &&
        (match best with
         | none => true
         | some (_, bv) => decide (bv < getq valores i))
    melhorLoop valores pesos capacidade rest
      (if cond then some (i, getq valores i) else best)

/-- `melhor_item_que_cabe`: the best-value single item that alone fits the
capacity, as a 0/1 selection with its value and weight. -/
def melhor_item_que_cabe (valores pesos : List ℚ) (capacidade : ℚ) :
    List ℚ × ℚ × ℚ :=
  let n := valores.length
  let selecao :=
    match melhorLoop valores pesos capacidade (List.range n) none with
    | none => List.replicate n 0
    | some iv => (List.replicate n 0).set iv.1 1
  let vp := avaliar selecao valores pesos
  (selecao, vp.1, vp.2)

/-! ### `gulosa_ratio` (source lines 120–132) -/

/-- The greedy scan: walk `ordem`, taking item `i` whenever `pesos[i] ≤ restante`. -/
def gulosaLoop (pesos : List ℚ) : List Nat → List ℚ → ℚ → List ℚ × ℚ
  | [], selecao, restante => (selecao, restante)
  | i :: rest, selecao, restante =>
    if getq pesos i ≤ restante then
      gulosaLoop pesos rest (selecao.set i 1) (restante - getq pesos i)
    else
      gulosaLoop pesos rest selecao restante

/-- `gulosa_ratio`, parametrised by the argsort order (see `OrdemRazao`). -/
def gulosa_ratio (valores pesos : List ℚ) (capacidade : ℚ) (ordem : List Nat) :
    Solucao :=
  let n := valores.length
  let sr := gulosaLoop pesos ordem (List.replicate n 0) capacidade
  let vp := avaliar sr.1 valores pesos
  ⟨sr.1, vp.1, vp.2, "Gulosa"⟩

/-! ### `relaxacao_linear` (source lines 139–165) -/

/-- The fractional scan: walk `ordem`; stop if `restante ≤ 1e-12`; take a
fitting item fully; otherwise assign the fraction `restante / pesos[i]`,
zero the remaining capacity and stop.  State: `(x, restante, valor_total)`. -/
def rlLoop (valores pesos : List ℚ) : List Nat → List ℚ → ℚ → ℚ → List ℚ × ℚ × ℚ
  | [], x, restante, valor => (x, restante, valor)
  | i :: rest, x, restante, valor =>
    if restante ≤ eps then (x, restante, valor)
    else if getq pesos i ≤ restante then
      rlLoop valores pesos rest (x.set i 1) (restante - getq pesos i)
        (valor + getq valores i)
    else
      (x.set i (restante / getq pesos i), 0,
        valor + (restante / getq pesos i) * getq valores i)

/-- `relaxacao_linear`, parametrised by the argsort order; returns
`(x_fracionario, valor_fracionario, peso_usado)` (timing omitted). -/
def relaxacao_linear (valores pesos : List ℚ) (capacidade : ℚ)
    (ordem : List Nat) : List ℚ × ℚ × ℚ :=
  let n := valores.length
  let r := rlLoop valores pesos ordem (List.replicate n 0) capacidade 0
  (r.1, r.2.2, dot r.1 pesos)

/-- Value accumulated by the fractional scan from a given remaining capacity. -/
def rlValor (valores pesos : List ℚ) : List Nat → ℚ → ℚ
  | [], _ => 0
  | i :: rest, restante =>
    if restante ≤ eps then 0
    else if getq pesos i ≤ restante then
      getq valores i + rlValor valores pesos rest (restante - getq pesos i)
    else (restante / getq pesos i) * getq valores i

/-- The fractional scan never reaches a state with remaining capacity in the
half-open interval `(0, 1e-12]` (where the source's epsilon guard would stop
the scan while capacity genuinely remains). -/
def rlOk (pesos : List ℚ) : List Nat → ℚ → Bool
  | [], _ => true
  | i :: rest, restante =>
    if restante ≤ eps then decide (restante ≤ 0)
    else if getq pesos i ≤ restante then rlOk pesos rest (restante - getq pesos i)
    else true

/-! ### `arredondamento_reparo` (source lines 172–227) -/

/-- `sel = (x_frac >= 0.5).astype(int)`: threshold rounding. -/
def thresholdSel (x_frac : List ℚ) : List ℚ :=
  x_frac.map (fun q => if (1 : ℚ) / 2 ≤ q then 1 else 0)

/-- `int()` truncation (toward zero) of a rational, as in `.astype(int)`. -/
def astype_int (q : ℚ) : ℚ := ((q.num.tdiv (q.den : ℤ) : ℤ) : ℚ)

/-- Indices currently selected, `np.where(sel == 1)[0]`. -/
def idxUns (sel : List ℚ) : List Nat :=
  (List.range sel.length).filter (fun i => decide (getq sel i = 1))

/-- Indices currently unselected, `np.where(sel == 0)[0]`. -/
def idxZeros (sel : List ℚ) : List Nat :=
  (List.range sel.length).filter (fun i => decide (getq sel i = 0))

/-- Repair loop (source lines 190–197): walk the removal order; stop as soon
as the weight fits, otherwise drop the item and update value/weight. -/
def repairLoop (valores pesos : List ℚ) (capacidade : ℚ) :
    List Nat → List ℚ → ℚ → ℚ → List ℚ × ℚ × ℚ
  | [], sel, valor, peso => (sel, valor, peso)
  | i :: rest, sel, valor, peso =>
    if peso ≤ capacidade then (sel, valor, peso)
    else
      repairLoop valores pesos capacidade rest (sel.set i 0)
        (valor - getq valores i) (peso - getq pesos i)

/-- Fill loop (source lines 200–207): walk the addition order, adding every
item that still fits (no early exit). -/
def fillLoop (valores pesos : List ℚ) (capacidade : ℚ) :
    List Nat → List ℚ → ℚ → ℚ → List ℚ × ℚ × ℚ
  | [], sel, valor, peso => (sel, valor, peso)
  | j :: rest, sel, valor, peso =>
    if peso + getq pesos j ≤ capacidade then
      fillLoop valores pesos capacidade rest (sel.set j 1)
        (valor + getq valores j) (peso + getq pesos j)
    else fillLoop valores pesos capacidade rest sel valor peso

/-- First index of the maximum of a list, `np.argmax` (0 on the empty list). -/
def argmaxAux : List ℚ → Nat → Nat → ℚ → Nat
  | [], _, bi, _ => bi
  | q :: rest, i, bi, bq =>
    if bq < q then argmaxAux rest (i + 1) i q else argmaxAux rest (i + 1) bi bq

/-- `np.argmax` on a list of rationals. -/
def argmaxIdx : List ℚ → Nat
  | [] => 0
  | q :: rest => argmaxAux rest 1 0 q

/-- The thresholded-then-repaired state (steps 1–2 of the source). -/
def arredAposReparo (x_frac valores pesos : List ℚ) (capacidade : ℚ)
    (ordemRem : List Nat) : List ℚ × ℚ × ℚ :=
  let sel0 := thresholdSel x_frac
  let vp0 := avaliar sel0 valores pesos
  if capacidade < vp0.2 then
    repairLoop valores pesos capacidade ordemRem sel0 vp0.1 vp0.2
  else (sel0, vp0.1, vp0.2)

/-- The repaired-and-filled candidate (steps 1–3 of the source). -/
def arredCandidato (x_frac valores pesos : List ℚ) (capacidade : ℚ)
    (ordemRem ordemAdd : List Nat) : List ℚ × ℚ × ℚ :=
  let s1 := arredAposReparo x_frac valores pesos capacidade ordemRem
  if s1.2.2 < capacidade then
    fillLoop valores pesos capacidade ordemAdd s1.1 s1.2.1 s1.2.2
  else s1

/-- The greedy competitor: the supplied `selecao_gulosa` when present,
otherwise the internally computed greedy selection (source lines 213–214). -/
def gulosaResolvida (valores pesos : List ℚ) (capacidade : ℚ)
    (selecao_gulosa : Option (List ℚ)) (ordemGulosa : List Nat) : List ℚ :=
  match selecao_gulosa with
  | some s => s
  | none => (gulosa_ratio valores pesos capacidade ordemGulosa).selecao

/-- Steps 4–6 of the source: evaluate the greedy competitor, list the three
candidates in fixed order, pick the first of maximal value via `np.argmax`,
and wrap it (with `.astype(int)` on the selection) into a `Solucao`. -/
def mkTournament (cand single : List ℚ × ℚ × ℚ) (sg : List ℚ)
    (valores pesos : List ℚ) : Solucao :=
  let gvp := avaliar sg valores pesos
  let candidatos := [cand, single, (sg, gvp.1, gvp.2)]
  let bi := argmaxIdx (candidatos.map (fun c => c.2.1))
  let best := candidatos.getD bi ([], 0, 0)
  ⟨best.1.map astype_int, best.2.1, best.2.2, "Arredondamento"⟩

/-- `arredondamento_reparo` (threshold, repair, fill, then a three-way
tournament against the best single item and the greedy solution), with the
two internal argsort orders and the greedy fallback order as parameters. -/
def arredondamento_reparo (x_frac valores pesos : List ℚ) (capacidade : ℚ)
    (ordemRem ordemAdd : List Nat) (selecao_gulosa : Option (List ℚ))
    (ordemGulosa : List Nat) : Solucao :=
  mkTournament (arredCandidato x_frac valores pesos capacidade ordemRem ordemAdd)
    (melhor_item_que_cabe valores pesos capacidade)
    (gulosaResolvida valores pesos capacidade selecao_gulosa ordemGulosa)
    valores pesos

/-! ### `busca_local` (source lines 234–290) -/

/-- Local-search state: current selection with its tracked value and weight. -/
structure BLState where
  selecao : List ℚ
  valor : ℚ
  peso : ℚ
deriving DecidableEq, Repr

/-- Add move scan (source lines 256–265): the first unselected item that fits
and has positive value (the `novo_valor > valor` re-check of the source is
kept verbatim). -/
def acharAdd (valores pesos : List ℚ) (capacidade valor peso : ℚ)
    (nao : List Nat) : Option Nat :=
  nao.find? (fun j =>
    decide (peso + getq pesos j ≤ capacidade) &&
      decide (0 < getq valores j) &&
      decide (valor < valor + getq valores j))

/-- Swap move scan (source lines 270–284): selected items outer, unselected
inner; first pair whose exchange stays feasible and strictly gains value. -/
def acharSwap (valores pesos : List ℚ) (capacidade peso : ℚ)
    (nao : List Nat) : List Nat → Option (Nat × Nat)
  | [] => none
  | i :: simRest =>
    match nao.find? (fun j =>
        decide (peso + (getq pesos j - getq pesos i) ≤ capacidade) &&
          decide (0 < getq valores j - getq valores i)) with
    | some j => some (i, j)
    | none => acharSwap valores pesos capacidade peso nao simRest

/-- One iteration of the `while` loop: try the add move first, then the swap
move; `none` when neither fires (local optimum). -/
def acharMovimento (valores pesos : List ℚ) (capacidade : ℚ) (st : BLState) :
    Option (Nat ⊕ (Nat × Nat)) :=
  match acharAdd valores pesos capacidade st.valor st.peso (idxZeros st.selecao) with
  | some j => some (Sum.inl j)
  | none =>
    match acharSwap valores pesos capacidade st.peso (idxZeros st.selecao)
        (idxUns st.selecao) with
    | some ij => some (Sum.inr ij)
    | none => none

/-- Commit a move, updating selection, value, and weight incrementally as the
source does. -/
def aplicarMovimento (valores pesos : List ℚ) (st : BLState) :
    Nat ⊕ (Nat × Nat) → BLState
  | Sum.inl j =>
    ⟨st.selecao.set j 1, st.valor + getq valores j, st.peso + getq pesos j⟩
  | Sum.inr (i, j) =>
    ⟨(st.selecao.set i 0).set j 1,
      st.valor + (getq valores j - getq valores i),
      st.peso + (getq pesos j - getq pesos i)⟩

/-- One committed iteration, or `none` at a local optimum. -/
def blStep (valores pesos : List ℚ) (capacidade : ℚ) (st : BLState) :
    Option BLState :=
  (acharMovimento valores pesos capacidade st).map (aplicarMovimento valores pesos st)

/-- The `while iteracoes < max_iter` loop; returns the final state and the
number of iterations executed (the closing unproductive iteration counts,
as in the source). -/
def blLoop (valores pesos : List ℚ) (capacidade : ℚ) : Nat → BLState → BLState × Nat
  | 0, st => (st, 0)
  | Nat.succ fuel, st =>
    match blStep valores pesos capacidade st with
    | none => (st, 1)
    | some st' =>
      let r := blLoop valores pesos capacidade fuel st'
      (r.1, r.2 + 1)

/-- `busca_local`, parametrised by the greedy fallback order; returns the
solution and the iteration count. -/
def busca_local (valores pesos : List ℚ) (capacidade : ℚ)
    (selecao_inicial : Option (List ℚ)) (ordemGulosa : List Nat)
    (max_iter : Nat) : Solucao × Nat :=
  let sel0 :=
    match selecao_inicial with
    | some s => s.map astype_int
    | none => (gulosa_ratio valores pesos capacidade ordemGulosa).selecao
  let vp := avaliar sel0 valores pesos
  let r := blLoop valores pesos capacidade max_iter ⟨sel0, vp.1, vp.2⟩
  (⟨r.1.selecao, r.1.valor, r.1.peso, "Busca Local"⟩, r.2)

/-- Well-formedness of a local-search state: 0/1 selection with consistent
tracked value and weight. -/
def BLWf (valores pesos : List ℚ) (st : BLState) : Prop :=
  Sel01 st.selecao ∧ st.valor = dot st.selecao valores ∧
    st.peso = dot st.selecao pesos

/-! ### `executar_comparacao` (source lines 362–378)

The per-instance work `executar_instancia` can raise (e.g. a missing CSV
column in the loader); the harness wraps it in `try/except`, logs the error,
and continues.  We model the outcome of processing each instance as an
`Except` value fed to the harness; the `try/except` block becomes the match
on that value. -/

/-- One row of the comparison table (the dict built by `executar_instancia`);
only the two sort keys are named, the remaining numeric columns are `dados`. -/
structure LinhaTabela where
  instancia : String
  n_itens : Nat
  dados : List ℚ
deriving DecidableEq, Repr

/-- Row order of `df.sort_values(by=["n_itens", "Instancia"])`. -/
def linhaLe (a b : LinhaTabela) : Bool :=
  decide (a.n_itens < b.n_itens) ||
    (decide (a.n_itens = b.n_itens) && !decide (b.instancia < a.instancia))

/-- Insertion into a sorted row list. -/
def insertLinha (a : LinhaTabela) : List LinhaTabela → List LinhaTabela
  | [] => [a]
  | b :: rest => if linhaLe a b then a :: b :: rest else b :: insertLinha a rest

/-- Sorting the accumulated rows by `(n_itens, Instancia)`; the source's sort
algorithm only matters up to the permutation it produces. -/
def sortLinhas : List LinhaTabela → List LinhaTabela
  | [] => []
  | a :: rest => insertLinha a (sortLinhas rest)

/-- `executar_comparacao`: accumulate the successful rows in order (failures
are logged and skipped), then sort the non-empty table. -/
def executar_comparacao (resultados : List (Except String LinhaTabela)) :
    List LinhaTabela :=
  let acc := resultados.foldl
    (fun acc r =>
      match r with
      | Except.ok linha => acc ++ [linha]
      | Except.error _ => acc) []
  if acc.isEmpty then acc else sortLinhas acc

/-! ### Aliasing model (for the read-only-inputs property)

numpy arrays are mutable objects; to state that the solvers never mutate
their input arrays we run them over an explicit heap (`Mem`) of arrays,
with every in-place element write (`selecao[i] = 1`, `sel[i] = 0`, ...)
performed through `escrever` on the array it targets in the source, and
every array-creating operation of the source (`np.zeros`, `.astype`,
`.copy()`) modelled by `alocar`. -/

/-- A heap of numpy arrays; a reference is an index into the heap. -/
abbrev Mem := List (List ℚ)

/-- Dereference an array. -/
def lerA (m : Mem) (r : Nat) : List ℚ := m.getD r []

/-- Allocate a fresh array, returning the new heap and its reference. -/
def alocar (m : Mem) (a : List ℚ) : Mem × Nat := (m ++ [a], m.length)

/-- In-place element write `a[i] = q` on array `r`. -/
def escrever (m : Mem) (r i : Nat) (q : ℚ) : Mem :=
  m.set r ((lerA m r).set i q)

/-- Heap version of the greedy scan: reads weights from the heap, writes only
the selection array. -/
def gulosaLoopMem (selR wR : Nat) : List Nat → Mem → ℚ → Mem
  | [], m, _ => m
  | i :: rest, m, restante =>
    if getq (lerA m wR) i ≤ restante then
      gulosaLoopMem selR wR rest (escrever m selR i 1)
        (restante - getq (lerA m wR) i)
    else gulosaLoopMem selR wR rest m restante

/-- Heap version of `gulosa_ratio`: `selecao = np.zeros(n)` is a fresh array;
the loop writes only into it. -/
def gulosa_ratio_mem (m : Mem) (vR wR : Nat) (capacidade : ℚ)
    (ordem : List Nat) : Mem × Solucao :=
  let al := alocar m (List.replicate (lerA m vR).length 0)
  let m2 := gulosaLoopMem al.2 wR ordem al.1 capacidade
  let vp := avaliar (lerA m2 al.2) (lerA m2 vR) (lerA m2 wR)
  (m2, ⟨lerA m2 al.2, vp.1, vp.2, "Gulosa"⟩)

/-- Heap version of the fractional scan. -/
def rlLoopMem (xR vR wR : Nat) : List Nat → Mem → ℚ → ℚ → Mem × ℚ × ℚ
  | [], m, restante, valor => (m, restante, valor)
  | i :: rest, m, restante, valor =>
    if restante ≤ eps then (m, restante, valor)
    else if getq (lerA m wR) i ≤ restante then
      rlLoopMem xR vR wR rest (escrever m xR i 1)
        (restante - getq (lerA m wR) i) (valor + getq (lerA m vR) i)
    else
      (escrever m xR i (restante / getq (lerA m wR) i), 0,
        valor + (restante / getq (lerA m wR) i) * getq (lerA m vR) i)

/-- Heap version of `relaxacao_linear`: `x = np.zeros(n)` is fresh. -/
def relaxacao_linear_mem (m : Mem) (vR wR : Nat) (capacidade : ℚ)
    (ordem : List Nat) : Mem × List ℚ × ℚ × ℚ :=
  let al := alocar m (List.replicate (lerA m vR).length 0)
  let r := rlLoopMem al.2 vR wR ordem al.1 capacidade 0
  (r.1, lerA r.1 al.2, r.2.2, dot (lerA r.1 al.2) (lerA r.1 wR))

/-- Heap version of the repair loop. -/
def repairLoopMem (selR vR wR : Nat) (capacidade : ℚ) :
    List Nat → Mem → ℚ → ℚ → Mem × ℚ × ℚ
  | [], m, valor, peso => (m, valor, peso)
  | i :: rest, m, valor, peso =>
    if peso ≤ capacidade then (m, valor, peso)
    else
      repairLoopMem selR vR wR capacidade rest (escrever m selR i 0)
        (valor - getq (lerA m vR) i) (peso - getq (lerA m wR) i)

/-- Heap version of the fill loop. -/
def fillLoopMem (selR vR wR : Nat) (capacidade : ℚ) :
    List Nat → Mem → ℚ → ℚ → Mem × ℚ × ℚ
  | [], m, valor, peso => (m, valor, peso)
  | j :: rest, m, valor, peso =>
    if peso + getq (lerA m wR) j ≤ capacidade then
      fillLoopMem selR vR wR capacidade rest (escrever m selR j 1)
        (valor + getq (lerA m vR) j) (peso + getq (lerA m wR) j)
    else fillLoopMem selR vR wR capacidade rest m valor peso

/-- Heap version of `arredondamento_reparo`: the thresholded selection
(`(x_frac >= 0.5).astype(int)`), the best-single-item selection
(`np.zeros_like`), and the returned `best_sel.astype(int)` are all fresh
arrays; the supplied greedy selection (when given by reference) is only read. -/
def arredondamento_reparo_mem (m : Mem) (xR vR wR : Nat) (capacidade : ℚ)
    (ordemRem ordemAdd : List Nat) (sgR : Option Nat)
    (ordemGulosa : List Nat) : Mem × Solucao :=
  let al := alocar m (thresholdSel (lerA m xR))
  let vp0 := avaliar (lerA al.1 al.2) (lerA al.1 vR) (lerA al.1 wR)
  let s1 :=
    if capacidade < vp0.2 then
      repairLoopMem al.2 vR wR capacidade ordemRem al.1 vp0.1 vp0.2
    else (al.1, vp0.1, vp0.2)
  let s2 :=
    if s1.2.2 < capacidade then
      fillLoopMem al.2 vR wR capacidade ordemAdd s1.1 s1.2.1 s1.2.2
    else s1
  let single := melhor_item_que_cabe (lerA s2.1 vR) (lerA s2.1 wR) capacidade
  let m3 := (alocar s2.1 single.1).1
  let gm : Mem × List ℚ :=
    match sgR with
    | some r => (m3, lerA m3 r)
    | none =>
      let g := gulosa_ratio_mem m3 vR wR capacidade ordemGulosa
      (g.1, g.2.selecao)
  let sol := mkTournament (lerA gm.1 al.2, s2.2.1, s2.2.2) single gm.2
    (lerA gm.1 vR) (lerA gm.1 wR)
  ((alocar gm.1 sol.selecao).1, sol)

/-- Heap version of the local-search loop: moves write only the working
selection array. -/
def blLoopMem (selR vR wR : Nat) (capacidade : ℚ) :
    Nat → Mem → ℚ → ℚ → Mem × ℚ × ℚ × Nat
  | 0, m, valor, peso => (m, valor, peso, 0)
  | Nat.succ fuel, m, valor, peso =>
    match acharMovimento (lerA m vR) (lerA m wR) capacidade
        ⟨lerA m selR, valor, peso⟩ with
    | none => (m, valor, peso, 1)
    | some (Sum.inl j) =>
      let r := blLoopMem selR vR wR capacidade fuel (escrever m selR j 1)
        (valor + getq (lerA m vR) j) (peso + getq (lerA m wR) j)
      (r.1, r.2.1, r.2.2.1, r.2.2.2 + 1)
    | some (Sum.inr (i, j)) =>
      let r := blLoopMem selR vR wR capacidade fuel
        (escrever (escrever m selR i 0) selR j 1)
        (valor + (getq (lerA m vR) j - getq (lerA m vR) i))
        (peso + (getq (lerA m wR) j - getq (lerA m wR) i))
      (r.1, r.2.1, r.2.2.1, r.2.2.2 + 1)

/-- Heap version of `busca_local`: the working selection is
`selecao_inicial.astype(int).copy()` — a fresh array — or the (fresh)
selection of the internally run greedy. -/
def busca_local_mem (m : Mem) (vR wR : Nat) (capacidade : ℚ)
    (seedR : Option Nat) (ordemGulosa : List Nat) (max_iter : Nat) :
    Mem × Solucao × Nat :=
  let am : Mem × Nat :=
    match seedR with
    | some r => alocar m ((lerA m r).map astype_int)
    | none =>
      let g := gulosa_ratio_mem m vR wR capacidade ordemGulosa
      alocar g.1 g.2.selecao
  let vp := avaliar (lerA am.1 am.2) (lerA am.1 vR) (lerA am.1 wR)
  let r := blLoopMem am.2 vR wR capacidade max_iter am.1 vp.1 vp.2
  (r.1, ⟨lerA r.1 am.2, r.2.1, r.2.2.1, "Busca Local"⟩, r.2.2.2)


/-! ### Theorems -/

/-! ### Dot-product lemmas -/

theorem dot_nil_left (ys : List ℚ) : dot [] ys = 0 := rfl

theorem dot_cons_cons (x y : ℚ) (xs ys : List ℚ) :
    dot (x :: xs) (y :: ys) = x * y + dot xs ys := by
  simp [dot, List.zipWith]

theorem dot_replicate_zero (n : Nat) (ys : List ℚ) :
    dot (List.replicate n 0) ys = 0 := by
  induction n generalizing ys with
  | zero => rfl
  | succ m ih =>
    cases ys with
    | nil => simp [dot]
    | cons y ys' => simp [List.replicate, dot_cons_cons, ih]

/-- Updating one coordinate of the left vector shifts the dot product by the
difference at that coordinate. -/
theorem dot_set (xs ys : List ℚ) (i : Nat) (q : ℚ) (hi : i < xs.length) :
    dot (xs.set i q) ys = dot xs ys + (q - getq xs i) * getq ys i := by
  induction xs generalizing ys i with
  | nil => simp at hi
  | cons x xs' ih =>
    cases ys with
    | nil =>
      simp [dot, getq]
    | cons y ys' =>
      cases i with
      | zero =>
        simp [List.set, dot_cons_cons, getq]
        ring
      | succ i' =>
        have hi' : i' < xs'.length := by simpa using hi
        simp only [List.set, dot_cons_cons, getq] at *
        rw [ih ys' i' hi']
        simp [getq]
        ring

theorem sumOver_nil (f : Nat → ℚ) : sumOver [] f = 0 := rfl

theorem sumOver_cons (a : Nat) (l : List Nat) (f : Nat → ℚ) :
    sumOver (a :: l) f = f a + sumOver l f := by
  simp [sumOver]

theorem sumOver_perm {l₁ l₂ : List Nat} (h : l₁.Perm l₂) (f : Nat → ℚ) :
    sumOver l₁ f = sumOver l₂ f := by
  exact List.Perm.sum_eq (h.map f)

/-- `dot` as a sum over `range`. -/
theorem dot_eq_sumOver (xs ys : List ℚ) (h : ys.length = xs.length) :
    dot xs ys = sumOver (List.range xs.length) (fun i => getq xs i * getq ys i) := by
  induction xs generalizing ys with
  | nil => simp [dot, sumOver]
  | cons x xs' ih =>
    cases ys with
    | nil => simp at h
    | cons y ys' =>
      have h' : ys'.length = xs'.length := by simpa using h
      rw [dot_cons_cons, ih ys' h']
      rw [List.length_cons, List.range_succ_eq_map]
      simp only [sumOver, List.map_cons, List.sum_cons, List.map_map]
      have he : ∀ a ∈ List.range xs'.length,
          ((fun i => getq (x :: xs') i * getq (y :: ys') i) ∘ Nat.succ) a
            = (fun i => getq xs' i * getq ys' i) a := by
        intro a _
        simp [getq, Function.comp]
      rw [List.map_congr_left he]
      simp [getq]

/-! ### Pointwise update lemmas -/

theorem getq_set_self (xs : List ℚ) (i : Nat) (q : ℚ) (h : i < xs.length) :
    getq (xs.set i q) i = q := by
  induction xs generalizing i with
  | nil => simp at h
  | cons x xs' ih =>
    cases i with
    | zero => rfl
    | succ i' =>
      have h' : i' < xs'.length := by simpa using h
      simpa [getq, List.set] using ih i' h'

theorem getq_set_ne (xs : List ℚ) (i j : Nat) (q : ℚ) (h : i ≠ j) :
    getq (xs.set i q) j = getq xs j := by
  simp [getq, List.getD_eq_getElem?_getD, List.getElem?_set_ne h]

theorem getq_replicate (n i : Nat) : getq (List.replicate n (0 : ℚ)) i = 0 := by
  simp only [getq, List.getD_eq_getElem?_getD, List.getElem?_replicate]
  split <;> rfl

theorem Sel01_replicate (n : Nat) : Sel01 (List.replicate n 0) := by
  intro q hq
  left
  exact (List.eq_of_mem_replicate hq)

theorem Sel01_set {sel : List ℚ} (h : Sel01 sel) {q : ℚ} (hq : q = 0 ∨ q = 1)
    (i : Nat) : Sel01 (sel.set i q) := by
  intro r hr
  rcases List.mem_or_eq_of_mem_set hr with h1 | h2
  · exact h r h1
  · rw [h2]; exact hq

theorem Sel01_getq {sel : List ℚ} (h : Sel01 sel) (i : Nat) :
    getq sel i = 0 ∨ getq sel i = 1 := by
  by_cases hi : i < sel.length
  · have : getq sel i ∈ sel := by
      simp only [getq, List.getD_eq_getElem?_getD]
      rw [List.getElem?_eq_getElem hi]
      exact List.getElem_mem hi
    exact h _ this
  · left
    simp [getq, List.getD_eq_getElem?_getD, List.getElem?_eq_none (Nat.le_of_not_lt hi)]

/-- Any winner of the `melhor_item_que_cabe` scan fits the capacity and is one
of the scanned indices (or was already the incoming champion). -/
theorem melhorLoop_some (valores pesos : List ℚ) (capacidade : ℚ) :
    ∀ (l : List Nat) (best : Option (Nat × ℚ)),
      (∀ j w, best = some (j, w) → getq pesos j ≤ capacidade) →
      ∀ i v, melhorLoop valores pesos capacidade l best = some (i, v) →
        getq pesos i ≤ capacidade ∧ (i ∈ l ∨ best = some (i, v)) := by
  intro l
  induction l with
  | nil =>
    intro best hbest i v h
    exact ⟨hbest i v h, Or.inr h⟩
  | cons a rest ih =>
    intro best hbest i v h
    simp only [melhorLoop] at h
    have hstep : ∀ (best' : Option (Nat × ℚ)),
        (∀ j w, best' = some (j, w) → getq pesos j ≤ capacidade) →
        melhorLoop valores pesos capacidade rest best' = some (i, v) →
        (∀ j w, best' = some (j, w) → j = a ∨ best = some (j, w)) →
        getq pesos i ≤ capacidade ∧ (i ∈ a :: rest ∨ best = some (i, v)) := by
      intro best' hb' h' horig
      rcases ih best' hb' i v h' with ⟨hcap, hmem⟩
      refine ⟨hcap, ?_⟩
      rcases hmem with hm | hm
      · exact Or.inl (List.mem_cons_of_mem a hm)
      · rcases horig i v hm with he | he
        · exact Or.inl (he ▸ List.mem_cons_self a rest)
        · exact Or.inr he
    rcases best with _ | ⟨b, bv⟩
    · by_cases hpa : getq pesos a ≤ capacidade
      · simp only [decide_eq_true hpa, Bool.true_and, if_true] at h
        refine hstep _ ?_ h ?_
        · intro j w hjw
          obtain ⟨rfl, rfl⟩ : a = j ∧ getq valores a = w := by
            injection hjw with h1; injection h1 with h2 h3; exact ⟨h2, h3⟩
          exact hpa
        · intro j w hjw
          left
          injection hjw with h1; injection h1 with h2 _; exact h2.symm
      · simp only [decide_eq_false hpa, Bool.false_and, if_false] at h
        exact hstep _ hbest h (fun j w hjw => by cases hjw)
    · by_cases hpa : getq pesos a ≤ capacidade
      · by_cases hbv : bv < getq valores a
        · simp only [decide_eq_true hpa, decide_eq_true hbv, Bool.and_self, if_true] at h
          refine hstep (some (a, getq valores a)) ?_ h ?_
          · intro j w hjw
            obtain ⟨rfl, rfl⟩ : a = j ∧ getq valores a = w := by
              injection hjw with h1; injection h1 with h2 h3; exact ⟨h2, h3⟩
            exact hpa
          · intro j w hjw
            left
            injection hjw with h1; injection h1 with h2 _; exact h2.symm
        · simp only [decide_eq_true hpa, decide_eq_false hbv, Bool.and_false, if_false] at h
          exact hstep _ hbest h (fun j w hjw => Or.inr hjw)
      · simp only [decide_eq_false hpa, Bool.false_and, if_false] at h
        exact hstep _ hbest h (fun j w hjw => Or.inr hjw)

/-- `melhor_item_que_cabe` returns a 0/1 selection of length `n`; if the
capacity is nonnegative its weight is within the capacity, and its recorded
value and weight are the dot products with the item arrays. -/
theorem melhor_item_feasible (valores pesos : List ℚ) (capacidade : ℚ)
    (hcap : 0 ≤ capacidade) :
    Sel01 (melhor_item_que_cabe valores pesos capacidade).1 ∧
      (melhor_item_que_cabe valores pesos capacidade).2.2 ≤ capacidade ∧
      (melhor_item_que_cabe valores pesos capacidade).1.length = valores.length ∧
      (melhor_item_que_cabe valores pesos capacidade).2.1 =
        dot (melhor_item_que_cabe valores pesos capacidade).1 valores ∧
      (melhor_item_que_cabe valores pesos capacidade).2.2 =
        dot (melhor_item_que_cabe valores pesos capacidade).1 pesos := by
  unfold melhor_item_que_cabe
  rcases hm : melhorLoop valores pesos capacidade (List.range valores.length) none with _ | ⟨i, v⟩
  · simp only [hm, avaliar]
    refine ⟨Sel01_replicate _, ?_, by simp, trivial, trivial⟩
    rw [dot_replicate_zero]
    exact hcap
  · have h := melhorLoop_some valores pesos capacidade (List.range valores.length) none
      (by intro j w hjw; cases hjw) i v hm
    have hi : i < valores.length := by
      rcases h.2 with hmem | hmem
      · exact List.mem_range.mp hmem
      · cases hmem
    simp only [hm, avaliar]
    refine ⟨Sel01_set (Sel01_replicate _) (Or.inr rfl) i, ?_, by simp, trivial, trivial⟩
    rw [dot_set _ _ _ _ (by simpa using hi), dot_replicate_zero, getq_replicate]
    simpa using h.1

/-- Invariant of the greedy scan on a duplicate-free index list whose
positions start unselected: the selection length is preserved, the weight
accounting `dot + restante` is conserved, the remaining capacity stays
nonnegative, and 0/1-ness is preserved. -/
theorem gulosaLoop_inv (pesos : List ℚ) :
    ∀ (l : List Nat) (selecao : List ℚ) (restante : ℚ),
      l.Nodup →
      (∀ i ∈ l, i < selecao.length) →
      (∀ i ∈ l, getq selecao i = 0) →
      (gulosaLoop pesos l selecao restante).1.length = selecao.length ∧
        dot (gulosaLoop pesos l selecao restante).1 pesos +
            (gulosaLoop pesos l selecao restante).2 =
          dot selecao pesos + restante ∧
        (0 ≤ restante → 0 ≤ (gulosaLoop pesos l selecao restante).2) ∧
        (Sel01 selecao → Sel01 (gulosaLoop pesos l selecao restante).1) := by
  intro l
  induction l with
  | nil =>
    intro selecao restante _ _ _
    exact ⟨rfl, by simp [gulosaLoop], fun h => h, fun h => h⟩
  | cons a rest ih =>
    intro selecao restante hnd hbound hzero
    have ha : a < selecao.length := hbound a (List.mem_cons_self a rest)
    have hanotin : a ∉ rest := (List.nodup_cons.mp hnd).1
    have hndr : rest.Nodup := (List.nodup_cons.mp hnd).2
    by_cases hfit : getq pesos a ≤ restante
    · have hbound' : ∀ i ∈ rest, i < (selecao.set a 1).length := by
        intro i hi
        simpa using hbound i (List.mem_cons_of_mem a hi)
      have hzero' : ∀ i ∈ rest, getq (selecao.set a 1) i = 0 := by
        intro i hi
        have hne : a ≠ i := fun h => hanotin (h ▸ hi)
        rw [getq_set_ne _ _ _ _ hne]
        exact hzero i (List.mem_cons_of_mem a hi)
      rcases ih (selecao.set a 1) (restante - getq pesos a) hndr hbound' hzero' with
        ⟨hL, hacc, hpos, h01⟩
      simp only [gulosaLoop, if_pos hfit]
      refine ⟨by simpa using hL, ?_, ?_, fun hs => h01 (Sel01_set hs (Or.inr rfl) a)⟩
      · rw [hacc, dot_set _ _ _ _ ha, hzero a (List.mem_cons_self a rest)]
        ring
      · intro hr
        exact hpos (by linarith)
    · have hzero' : ∀ i ∈ rest, getq selecao i = 0 := fun i hi =>
        hzero i (List.mem_cons_of_mem a hi)
      have hbound' : ∀ i ∈ rest, i < selecao.length := fun i hi =>
        hbound i (List.mem_cons_of_mem a hi)
      rcases ih selecao restante hndr hbound' hzero' with ⟨hL, hacc, hpos, h01⟩
      simp only [gulosaLoop, if_neg hfit]
      exact ⟨hL, hacc, hpos, h01⟩

/-- `gulosa_ratio` returns a 0/1 selection of the right length whose weight
respects the capacity, whenever the order list is a permutation of the index
range and the capacity is nonnegative. -/
theorem gulosa_feasible (valores pesos : List ℚ) (capacidade : ℚ)
    (ordem : List Nat) (hperm : ordem.Perm (List.range valores.length))
    (hcap : 0 ≤ capacidade) :
    Sel01 (gulosa_ratio valores pesos capacidade ordem).selecao ∧
      (gulosa_ratio valores pesos capacidade ordem).peso ≤ capacidade ∧
      (gulosa_ratio valores pesos capacidade ordem).selecao.length = valores.length := by
  have hnd : ordem.Nodup := hperm.nodup_iff.mpr (List.nodup_range _)
  have hbound : ∀ i ∈ ordem, i < (List.replicate valores.length (0 : ℚ)).length := by
    intro i hi
    have := hperm.mem_iff.mp hi
    simpa using List.mem_range.mp this
  have hzero : ∀ i ∈ ordem, getq (List.replicate valores.length (0 : ℚ)) i = 0 :=
    fun i _ => getq_replicate _ _
  rcases gulosaLoop_inv pesos ordem (List.replicate valores.length 0) capacidade
      hnd hbound hzero with ⟨hL, hacc, hpos, h01⟩
  unfold gulosa_ratio
  simp only [avaliar]
  refine ⟨h01 (Sel01_replicate _), ?_, by simpa using hL⟩
  rw [dot_replicate_zero] at hacc
  have := hpos hcap
  linarith

theorem rlLoop_valor (valores pesos : List ℚ) :
    ∀ (l : List Nat) (x : List ℚ) (restante valor : ℚ),
      (rlLoop valores pesos l x restante valor).2.2 =
        valor + rlValor valores pesos l restante := by
  intro l
  induction l with
  | nil => intro x restante valor; simp [rlLoop, rlValor]
  | cons i rest ih =>
    intro x restante valor
    by_cases hg : restante ≤ eps
    · simp [rlLoop, rlValor, if_pos hg]
    · by_cases hfit : getq pesos i ≤ restante
      · simp only [rlLoop, rlValor, if_neg hg, if_pos hfit, ih]
        ring
      · simp [rlLoop, rlValor, if_neg hg, if_neg hfit]

/-! ### Auxiliary sum and ratio lemmas -/

theorem eps_pos : (0 : ℚ) < eps := by norm_num [eps]

theorem razao_mul_peso {valores pesos : List ℚ} {i : Nat}
    (hw : eps ≤ getq pesos i) :
    razao valores pesos i * getq pesos i = getq valores i := by
  have hpos : (0 : ℚ) < getq pesos i := lt_of_lt_of_le eps_pos hw
  unfold razao
  rw [max_eq_left hw]
  field_simp

theorem razao_nonneg {valores pesos : List ℚ} {i : Nat}
    (hw : eps ≤ getq pesos i) (hv : 0 ≤ getq valores i) :
    0 ≤ razao valores pesos i := by
  unfold razao
  rw [max_eq_left hw]
  exact div_nonneg hv (le_trans eps_pos.le hw)

theorem sumOver_congr {l : List Nat} {f g : Nat → ℚ}
    (h : ∀ i ∈ l, f i = g i) : sumOver l f = sumOver l g := by
  unfold sumOver
  rw [List.map_congr_left h]

theorem sumOver_smul (l : List Nat) (t : ℚ) (f : Nat → ℚ) :
    sumOver l (fun i => t * f i) = t * sumOver l f := by
  induction l with
  | nil => simp [sumOver]
  | cons a rest ih => rw [sumOver_cons, sumOver_cons, ih]; ring

theorem sumOver_le_sumOver {l : List Nat} {f g : Nat → ℚ}
    (h : ∀ i ∈ l, f i ≤ g i) : sumOver l f ≤ sumOver l g :=
  List.sum_le_sum h

/-- Exchange argument for the fractional greedy scan: on a ratio-descending
index list with all weights at least `1e-12`, nonnegative values, and no
`(0, 1e-12]` capacity state, the scan's value dominates the value of every
fractional assignment `y ∈ [0,1]` that fits the capacity. -/
theorem rlValor_ub (valores pesos : List ℚ) :
    ∀ (l : List Nat) (c : ℚ) (y : Nat → ℚ),
      (∀ i ∈ l, eps ≤ getq pesos i) →
      (∀ i ∈ l, 0 ≤ getq valores i) →
      l.Pairwise (fun i j => razao valores pesos j ≤ razao valores pesos i) →
      0 ≤ c →
      rlOk pesos l c = true →
      (∀ i ∈ l, 0 ≤ y i ∧ y i ≤ 1) →
      sumOver l (fun i => getq pesos i * y i) ≤ c →
      sumOver l (fun i => getq valores i * y i) ≤ rlValor valores pesos l c := by
  intro l
  induction l with
  | nil =>
    intro c y _ _ _ hc _ _ _
    simpa [sumOver, rlValor] using hc
  | cons a rest ih =>
    intro c y hw hv hsort hc hok hy hfeas
    have hwa : eps ≤ getq pesos a := hw a (List.mem_cons_self a rest)
    have hva : 0 ≤ getq valores a := hv a (List.mem_cons_self a rest)
    have hwapos : (0 : ℚ) < getq pesos a := lt_of_lt_of_le eps_pos hwa
    have hra0 : 0 ≤ razao valores pesos a := razao_nonneg hwa hva
    have hrava : razao valores pesos a * getq pesos a = getq valores a :=
      razao_mul_peso hwa
    have hsorta : ∀ i ∈ rest, razao valores pesos i ≤ razao valores pesos a :=
      (List.pairwise_cons.mp hsort).1
    have hsortr := (List.pairwise_cons.mp hsort).2
    have hya := hy a (List.mem_cons_self a rest)
    -- pointwise bound `v i * y i ≤ R * (w i * y i)` for any `R ≥ razao i`
    have hpoint : ∀ (R : ℚ), ∀ i ∈ (a :: rest),
        razao valores pesos i ≤ R →
        getq valores i * y i ≤ R * (getq pesos i * y i) := by
      intro R i hi hRi
      have hwi : eps ≤ getq pesos i := hw i hi
      have hwyi : 0 ≤ getq pesos i * y i :=
        mul_nonneg (le_trans eps_pos.le hwi) (hy i hi).1
      calc getq valores i * y i
          = razao valores pesos i * (getq pesos i * y i) := by
            rw [← mul_assoc, razao_mul_peso hwi]
        _ ≤ R * (getq pesos i * y i) := mul_le_mul_of_nonneg_right hRi hwyi
    by_cases hguard : c ≤ eps
    · -- epsilon stop; `rlOk` forces `c = 0`, whence `y` uses no capacity
      have hc0 : c ≤ 0 := by
        have := hok
        rw [rlOk, if_pos hguard] at this
        exact of_decide_eq_true this
      have heach : ∀ i ∈ a :: rest, getq valores i * y i = 0 := by
        intro i hi
        have hwi : eps ≤ getq pesos i := hw i hi
        have hwpos : (0 : ℚ) < getq pesos i := lt_of_lt_of_le eps_pos hwi
        have hterm0 : 0 ≤ getq pesos i * y i := mul_nonneg hwpos.le (hy i hi).1
        have hterm_le : getq pesos i * y i ≤
            sumOver (a :: rest) (fun j => getq pesos j * y j) := by
          apply List.single_le_sum
          · intro x hx
            rcases List.mem_map.mp hx with ⟨j, hj, rfl⟩
            exact mul_nonneg (lt_of_lt_of_le eps_pos (hw j hj)).le (hy j hj).1
          · exact List.mem_map_of_mem _ hi
        have hmz : getq pesos i * y i = 0 := le_antisymm (by linarith) hterm0
        have hyz : y i = 0 := by
          rcases mul_eq_zero.mp hmz with h | h
          · exact absurd h (ne_of_gt hwpos)
          · exact h
        rw [hyz, mul_zero]
      have hsum0 : sumOver (a :: rest) (fun i => getq valores i * y i) = 0 := by
        apply List.sum_eq_zero
        intro x hx
        rcases List.mem_map.mp hx with ⟨j, hj, rfl⟩
        exact heach j hj
      rw [hsum0, rlValor, if_pos hguard]
    · by_cases hfit : getq pesos a ≤ c
      · -- item `a` taken fully
        have hok' : rlOk pesos rest (c - getq pesos a) = true := by
          have := hok
          rwa [rlOk, if_neg hguard, if_pos hfit] at this
        have hcr : 0 ≤ c - getq pesos a := by linarith
        have hwr : ∀ i ∈ rest, eps ≤ getq pesos i := fun i hi =>
          hw i (List.mem_cons_of_mem a hi)
        have hvr : ∀ i ∈ rest, 0 ≤ getq valores i := fun i hi =>
          hv i (List.mem_cons_of_mem a hi)
        have hfeas' : getq pesos a * y a +
            sumOver rest (fun i => getq pesos i * y i) ≤ c := by
          have h := hfeas
          simp only [sumOver_cons] at h
          exact h
        have hS0 : 0 ≤ sumOver rest (fun i => getq pesos i * y i) := by
          apply List.sum_nonneg
          intro x hx
          rcases List.mem_map.mp hx with ⟨j, hj, rfl⟩
          exact mul_nonneg
            (lt_of_lt_of_le eps_pos (hw j (List.mem_cons_of_mem a hj))).le
            (hy j (List.mem_cons_of_mem a hj)).1
        rw [rlValor, if_neg hguard, if_pos hfit]
        simp only [sumOver_cons]
        set S := sumOver rest (fun i => getq pesos i * y i) with hSdef
        by_cases hSle : S ≤ c - getq pesos a
        · have hih := ih (c - getq pesos a) y hwr hvr hsortr hcr hok'
            (fun i hi => hy i (List.mem_cons_of_mem a hi)) hSle
          have hyava : getq valores a * y a ≤ getq valores a :=
            mul_le_of_le_one_right hva hya.2
          linarith
        · -- scale the tail assignment down to fit the reduced capacity
          push_neg at hSle
          have hSpos : 0 < S := lt_of_le_of_lt hcr hSle
          set t : ℚ := (c - getq pesos a) / S with htdef
          have ht0 : 0 ≤ t := div_nonneg hcr hSpos.le
          have ht1 : t ≤ 1 := (div_le_one hSpos).mpr hSle.le
          have hy' : ∀ i ∈ rest, 0 ≤ t * y i ∧ t * y i ≤ 1 := by
            intro i hi
            have hyi := hy i (List.mem_cons_of_mem a hi)
            exact ⟨mul_nonneg ht0 hyi.1, mul_le_one₀ ht1 hyi.1 hyi.2⟩
          have hfeas'' :
              sumOver rest (fun i => getq pesos i * (t * y i)) ≤ c - getq pesos a := by
            have : sumOver rest (fun i => getq pesos i * (t * y i)) =
                t * S := by
              rw [← sumOver_smul]
              apply sumOver_congr
              intro i _
              ring
            rw [this, htdef, div_mul_cancel₀ _ (ne_of_gt hSpos)]
          have hih := ih (c - getq pesos a) (fun i => t * y i) hwr hvr hsortr hcr
            hok' hy' hfeas''
          -- value lost by scaling is at most `va * (1 - y a)`
          have hVle : sumOver rest (fun i => getq valores i * y i) ≤
              razao valores pesos a * S := by
            have h1 : sumOver rest (fun i => getq valores i * y i) ≤
                sumOver rest (fun i => razao valores pesos a * (getq pesos i * y i)) := by
              apply sumOver_le_sumOver
              intro i hi
              exact hpoint (razao valores pesos a) i (List.mem_cons_of_mem a hi)
                (hsorta i hi)
            rw [sumOver_smul] at h1
            exact h1
          have hscaled : sumOver rest (fun i => getq valores i * (t * y i)) =
              t * sumOver rest (fun i => getq valores i * y i) := by
            rw [← sumOver_smul]
            apply sumOver_congr
            intro i _
            ring
          have hloss : (1 - t) * sumOver rest (fun i => getq valores i * y i) ≤
              razao valores pesos a * (getq pesos a * (1 - y a)) := by
            have hV0 : 0 ≤ (1 - t) := by linarith
            have hstep1 : (1 - t) * sumOver rest (fun i => getq valores i * y i) ≤
                (1 - t) * (razao valores pesos a * S) :=
              mul_le_mul_of_nonneg_left hVle hV0
            have hSbound : S - (c - getq pesos a) ≤ getq pesos a * (1 - y a) := by
              have hwaya : 0 ≤ getq pesos a * y a := mul_nonneg hwapos.le hya.1
              nlinarith [hfeas']
            have hts : (1 - t) * S = S - (c - getq pesos a) := by
              rw [htdef]
              field_simp
            have hstep2 : (1 - t) * (razao valores pesos a * S) =
                razao valores pesos a * ((1 - t) * S) := by ring
            rw [hstep2, hts] at hstep1
            calc (1 - t) * sumOver rest (fun i => getq valores i * y i)
                ≤ razao valores pesos a * (S - (c - getq pesos a)) := hstep1
              _ ≤ razao valores pesos a * (getq pesos a * (1 - y a)) :=
                  mul_le_mul_of_nonneg_left hSbound hra0
          have hfinal : razao valores pesos a * (getq pesos a * (1 - y a)) =
              getq valores a * (1 - y a) := by
            rw [← mul_assoc, hrava]
          have hyava : getq valores a * y a + getq valores a * (1 - y a) =
              getq valores a := by ring
          have hsplit : sumOver rest (fun i => getq valores i * y i) =
              sumOver rest (fun i => getq valores i * (t * y i)) +
                (1 - t) * sumOver rest (fun i => getq valores i * y i) := by
            rw [hscaled]; ring
          rw [hfinal] at hloss
          linarith [hih, hloss]
      · -- item `a` does not fit: fractional branch
        rw [rlValor, if_neg hguard, if_neg hfit]
        have hbound : sumOver (a :: rest) (fun i => getq valores i * y i) ≤
            razao valores pesos a *
              sumOver (a :: rest) (fun i => getq pesos i * y i) := by
          have h1 : sumOver (a :: rest) (fun i => getq valores i * y i) ≤
              sumOver (a :: rest)
                (fun i => razao valores pesos a * (getq pesos i * y i)) := by
            apply sumOver_le_sumOver
            intro i hi
            rcases List.mem_cons.mp hi with rfl | hir
            · exact hpoint _ i hi le_rfl
            · exact hpoint _ i hi (hsorta i hir)
          rw [sumOver_smul] at h1
          exact h1
        have h2 : razao valores pesos a *
            sumOver (a :: rest) (fun i => getq pesos i * y i) ≤
              razao valores pesos a * c :=
          mul_le_mul_of_nonneg_left hfeas hra0
        have h3 : razao valores pesos a * c = c / getq pesos a * getq valores a := by
          unfold razao
          rw [max_eq_left hwa]
          field_simp
          ring
        linarith

/-- Structural invariant of the fractional scan: length is preserved, the
remaining capacity stays nonnegative, weight accounting is conserved, and the
result is either a 0/1 vector or has exactly one coordinate strictly between
0 and 1 (every other coordinate 0/1) with the capacity fully used. -/
theorem rlLoop_inv (valores pesos : List ℚ) :
    ∀ (l : List Nat) (x : List ℚ) (restante valor : ℚ),
      l.Nodup →
      (∀ i ∈ l, i < x.length) →
      (∀ i ∈ l, getq x i = 0) →
      0 ≤ restante →
      Sel01 x →
      (rlLoop valores pesos l x restante valor).1.length = x.length ∧
        0 ≤ (rlLoop valores pesos l x restante valor).2.1 ∧
        dot (rlLoop valores pesos l x restante valor).1 pesos +
            (rlLoop valores pesos l x restante valor).2.1 =
          dot x pesos + restante ∧
        (Sel01 (rlLoop valores pesos l x restante valor).1 ∨
          ∃ j, j < x.length ∧
            (0 < getq (rlLoop valores pesos l x restante valor).1 j ∧
              getq (rlLoop valores pesos l x restante valor).1 j < 1) ∧
            (∀ i, i ≠ j →
              getq (rlLoop valores pesos l x restante valor).1 i = 0 ∨
                getq (rlLoop valores pesos l x restante valor).1 i = 1) ∧
            (rlLoop valores pesos l x restante valor).2.1 = 0) := by
  intro l
  induction l with
  | nil =>
    intro x restante valor _ _ _ hr h01
    exact ⟨rfl, hr, by simp [rlLoop], Or.inl h01⟩
  | cons i rest ih =>
    intro x restante valor hnd hbound hzero hr h01
    have hi : i < x.length := hbound i (List.mem_cons_self i rest)
    have hinotin : i ∉ rest := (List.nodup_cons.mp hnd).1
    have hndr : rest.Nodup := (List.nodup_cons.mp hnd).2
    by_cases hg : restante ≤ eps
    · simp only [rlLoop, if_pos hg]
      exact ⟨trivial, hr, trivial, Or.inl h01⟩
    · by_cases hfit : getq pesos i ≤ restante
      · have hbound' : ∀ j ∈ rest, j < (x.set i 1).length := by
          intro j hj
          simpa using hbound j (List.mem_cons_of_mem i hj)
        have hzero' : ∀ j ∈ rest, getq (x.set i 1) j = 0 := by
          intro j hj
          have hne : i ≠ j := fun h => hinotin (h ▸ hj)
          rw [getq_set_ne _ _ _ _ hne]
          exact hzero j (List.mem_cons_of_mem i hj)
        have hr' : 0 ≤ restante - getq pesos i := by linarith
        have h01' : Sel01 (x.set i 1) := Sel01_set h01 (Or.inr rfl) i
        rcases ih (x.set i 1) (restante - getq pesos i) (valor + getq valores i)
            hndr hbound' hzero' hr' h01' with ⟨hL, hR, hAcc, hDisj⟩
        simp only [rlLoop, if_neg hg, if_pos hfit]
        refine ⟨by simpa using hL, hR, ?_, ?_⟩
        · rw [hAcc, dot_set _ _ _ _ hi, hzero i (List.mem_cons_self i rest)]
          ring
        · rcases hDisj with h | ⟨j, hj, hfrac, hothers, hrz⟩
          · exact Or.inl h
          · exact Or.inr ⟨j, by simpa using hj, hfrac, hothers, hrz⟩
      · -- fractional branch
        have hrpos : 0 < restante := lt_trans eps_pos (lt_of_not_le hg)
        have hwgt : restante < getq pesos i := lt_of_not_le hfit
        have hwpos : 0 < getq pesos i := lt_trans hrpos hwgt
        have hfr0 : 0 < restante / getq pesos i := div_pos hrpos hwpos
        have hfr1 : restante / getq pesos i < 1 := (div_lt_one hwpos).mpr hwgt
        simp only [rlLoop, if_neg hg, if_neg hfit]
        refine ⟨by simp, le_refl 0, ?_, ?_⟩
        · rw [dot_set _ _ _ _ hi, hzero i (List.mem_cons_self i rest)]
          rw [sub_zero, div_mul_cancel₀ _ (ne_of_gt hwpos)]
          ring
        · refine Or.inr ⟨i, hi, ?_, ?_, trivial⟩
          · rw [getq_set_self _ _ _ hi]
            exact ⟨hfr0, hfr1⟩
          · intro k hk
            rw [getq_set_ne _ _ _ _ (Ne.symm hk)]
            exact Sel01_getq h01 k

/-! ### Lemmas for the rounding-and-repair pipeline -/

theorem getq_eq_zero_of_ge {xs : List ℚ} {j : Nat} (h : xs.length ≤ j) :
    getq xs j = 0 := by
  simp [getq, List.getD_eq_getElem?_getD, List.getElem?_eq_none h]

theorem dot_eq_zero_left {xs : List ℚ} (h : ∀ j, getq xs j = 0) (ys : List ℚ) :
    dot xs ys = 0 := by
  induction xs generalizing ys with
  | nil => rfl
  | cons x xs' ih =>
    cases ys with
    | nil => rfl
    | cons y ys' =>
      have h0 : x = 0 := h 0
      have ht : ∀ j, getq xs' j = 0 := fun j => h (j + 1)
      rw [dot_cons_cons, h0, ih ht]
      ring

theorem thresholdSel_length (x_frac : List ℚ) :
    (thresholdSel x_frac).length = x_frac.length := by
  simp [thresholdSel]

theorem thresholdSel_01 (x_frac : List ℚ) : Sel01 (thresholdSel x_frac) := by
  intro q hq
  rcases List.mem_map.mp hq with ⟨p, _, rfl⟩
  by_cases h : (1 : ℚ) / 2 ≤ p
  · right; rw [if_pos h]
  · left; rw [if_neg h]

theorem mem_idxUns {sel : List ℚ} {i : Nat} :
    i ∈ idxUns sel ↔ i < sel.length ∧ getq sel i = 1 := by
  simp [idxUns, List.mem_filter, List.mem_range]

theorem mem_idxZeros {sel : List ℚ} {j : Nat} :
    j ∈ idxZeros sel ↔ j < sel.length ∧ getq sel j = 0 := by
  simp [idxZeros, List.mem_filter, List.mem_range]

theorem idxUns_nodup (sel : List ℚ) : (idxUns sel).Nodup :=
  (List.nodup_range _).filter _

theorem idxZeros_nodup (sel : List ℚ) : (idxZeros sel).Nodup :=
  (List.nodup_range _).filter _

/-- Invariant of the repair loop: 0/1-ness and value/weight consistency are
preserved, and on exit either the weight fits the capacity or every index of
the removal list has been zeroed (and the rest left unchanged). -/
theorem repairLoop_inv (valores pesos : List ℚ) (capacidade : ℚ) :
    ∀ (l : List Nat) (sel : List ℚ) (valor peso : ℚ),
      l.Nodup →
      (∀ i ∈ l, i < sel.length) →
      (∀ i ∈ l, getq sel i = 1) →
      valor = dot sel valores →
      peso = dot sel pesos →
      Sel01 sel →
      (repairLoop valores pesos capacidade l sel valor peso).1.length = sel.length ∧
        Sel01 (repairLoop valores pesos capacidade l sel valor peso).1 ∧
        (repairLoop valores pesos capacidade l sel valor peso).2.1 =
          dot (repairLoop valores pesos capacidade l sel valor peso).1 valores ∧
        (repairLoop valores pesos capacidade l sel valor peso).2.2 =
          dot (repairLoop valores pesos capacidade l sel valor peso).1 pesos ∧
        ((repairLoop valores pesos capacidade l sel valor peso).2.2 ≤ capacidade ∨
          ∀ j, getq (repairLoop valores pesos capacidade l sel valor peso).1 j = 0 ∨
            (getq (repairLoop valores pesos capacidade l sel valor peso).1 j =
                getq sel j ∧ j ∉ l)) := by
  intro l
  induction l with
  | nil =>
    intro sel valor peso _ _ _ hv hp h01
    exact ⟨rfl, h01, hv, hp, Or.inr (fun j => Or.inr ⟨rfl, List.not_mem_nil j⟩)⟩
  | cons i rest ih =>
    intro sel valor peso hnd hbound hones hv hp h01
    have hi : i < sel.length := hbound i (List.mem_cons_self i rest)
    have hione : getq sel i = 1 := hones i (List.mem_cons_self i rest)
    have hinotin : i ∉ rest := (List.nodup_cons.mp hnd).1
    have hndr : rest.Nodup := (List.nodup_cons.mp hnd).2
    by_cases hfits : peso ≤ capacidade
    · simp only [repairLoop, if_pos hfits]
      exact ⟨trivial, h01, hv, hp, Or.inl hfits⟩
    · have hbound' : ∀ j ∈ rest, j < (sel.set i 0).length := by
        intro j hj
        simpa using hbound j (List.mem_cons_of_mem i hj)
      have hones' : ∀ j ∈ rest, getq (sel.set i 0) j = 1 := by
        intro j hj
        have hne : i ≠ j := fun h => hinotin (h ▸ hj)
        rw [getq_set_ne _ _ _ _ hne]
        exact hones j (List.mem_cons_of_mem i hj)
      have hv' : valor - getq valores i = dot (sel.set i 0) valores := by
        rw [dot_set _ _ _ _ hi, hione, hv]
        ring
      have hp' : peso - getq pesos i = dot (sel.set i 0) pesos := by
        rw [dot_set _ _ _ _ hi, hione, hp]
        ring
      have h01' : Sel01 (sel.set i 0) := Sel01_set h01 (Or.inl rfl) i
      rcases ih (sel.set i 0) (valor - getq valores i) (peso - getq pesos i)
          hndr hbound' hones' hv' hp' h01' with ⟨hL, h01r, hvr, hpr, hdisj⟩
      simp only [repairLoop, if_neg hfits]
      refine ⟨by simpa using hL, h01r, hvr, hpr, ?_⟩
      rcases hdisj with h | h
      · exact Or.inl h
      · refine Or.inr ?_
        intro j
        rcases h j with hz | ⟨heq, hnin⟩
        · exact Or.inl hz
        · by_cases hji : j = i
          · subst hji
            rw [heq, getq_set_self _ _ _ hi]
            exact Or.inl rfl
          · rw [heq, getq_set_ne _ _ _ _ (fun h => hji h.symm)]
            refine Or.inr ⟨rfl, ?_⟩
            intro hmem
            rcases List.mem_cons.mp hmem with h' | h'
            · exact hji h'
            · exact hnin h'

/-- Invariant of the fill loop: 0/1-ness and value/weight consistency are
preserved, and feasibility is preserved. -/
theorem fillLoop_inv (valores pesos : List ℚ) (capacidade : ℚ) :
    ∀ (l : List Nat) (sel : List ℚ) (valor peso : ℚ),
      l.Nodup →
      (∀ j ∈ l, j < sel.length) →
      (∀ j ∈ l, getq sel j = 0) →
      valor = dot sel valores →
      peso = dot sel pesos →
      Sel01 sel →
      (fillLoop valores pesos capacidade l sel valor peso).1.length = sel.length ∧
        Sel01 (fillLoop valores pesos capacidade l sel valor peso).1 ∧
        (fillLoop valores pesos capacidade l sel valor peso).2.1 =
          dot (fillLoop valores pesos capacidade l sel valor peso).1 valores ∧
        (fillLoop valores pesos capacidade l sel valor peso).2.2 =
          dot (fillLoop valores pesos capacidade l sel valor peso).1 pesos ∧
        (peso ≤ capacidade →
          (fillLoop valores pesos capacidade l sel valor peso).2.2 ≤ capacidade) := by
  intro l
  induction l with
  | nil =>
    intro sel valor peso _ _ _ hv hp h01
    exact ⟨rfl, h01, hv, hp, fun h => h⟩
  | cons j rest ih =>
    intro sel valor peso hnd hbound hzeros hv hp h01
    have hj : j < sel.length := hbound j (List.mem_cons_self j rest)
    have hjz : getq sel j = 0 := hzeros j (List.mem_cons_self j rest)
    have hjnotin : j ∉ rest := (List.nodup_cons.mp hnd).1
    have hndr : rest.Nodup := (List.nodup_cons.mp hnd).2
    by_cases hfits : peso + getq pesos j ≤ capacidade
    · have hbound' : ∀ k ∈ rest, k < (sel.set j 1).length := by
        intro k hk
        simpa using hbound k (List.mem_cons_of_mem j hk)
      have hzeros' : ∀ k ∈ rest, getq (sel.set j 1) k = 0 := by
        intro k hk
        have hne : j ≠ k := fun h => hjnotin (h ▸ hk)
        rw [getq_set_ne _ _ _ _ hne]
        exact hzeros k (List.mem_cons_of_mem j hk)
      have hv' : valor + getq valores j = dot (sel.set j 1) valores := by
        rw [dot_set _ _ _ _ hj, hjz, hv]
        ring
      have hp' : peso + getq pesos j = dot (sel.set j 1) pesos := by
        rw [dot_set _ _ _ _ hj, hjz, hp]
        ring
      have h01' : Sel01 (sel.set j 1) := Sel01_set h01 (Or.inr rfl) j
      rcases ih (sel.set j 1) (valor + getq valores j) (peso + getq pesos j)
          hndr hbound' hzeros' hv' hp' h01' with ⟨hL, h01r, hvr, hpr, hfeas⟩
      simp only [fillLoop, if_pos hfits]
      exact ⟨by simpa using hL, h01r, hvr, hpr, fun _ => hfeas hfits⟩
    · have hzeros' : ∀ k ∈ rest, getq sel k = 0 := fun k hk =>
        hzeros k (List.mem_cons_of_mem j hk)
      have hbound' : ∀ k ∈ rest, k < sel.length := fun k hk =>
        hbound k (List.mem_cons_of_mem j hk)
      rcases ih sel valor peso hndr hbound' hzeros' hv hp h01 with
        ⟨hL, h01r, hvr, hpr, hfeas⟩
      simp only [fillLoop, if_neg hfits]
      exact ⟨hL, h01r, hvr, hpr, hfeas⟩

/-- The thresholded-then-repaired state is 0/1, consistent, feasible
(given `capacidade ≥ 0` and a removal order covering the selected indices),
and length-preserving. -/
theorem arredAposReparo_props (x_frac valores pesos : List ℚ) (capacidade : ℚ)
    (ordemRem : List Nat)
    (hRem : ordemRem.Perm (idxUns (thresholdSel x_frac)))
    (hcap : 0 ≤ capacidade) :
    (arredAposReparo x_frac valores pesos capacidade ordemRem).1.length =
        x_frac.length ∧
      Sel01 (arredAposReparo x_frac valores pesos capacidade ordemRem).1 ∧
      (arredAposReparo x_frac valores pesos capacidade ordemRem).2.1 =
        dot (arredAposReparo x_frac valores pesos capacidade ordemRem).1 valores ∧
      (arredAposReparo x_frac valores pesos capacidade ordemRem).2.2 =
        dot (arredAposReparo x_frac valores pesos capacidade ordemRem).1 pesos ∧
      (arredAposReparo x_frac valores pesos capacidade ordemRem).2.2 ≤ capacidade := by
  unfold arredAposReparo
  set sel0 := thresholdSel x_frac with hsel0
  have h010 : Sel01 sel0 := thresholdSel_01 x_frac
  by_cases hover : capacidade < (avaliar sel0 valores pesos).2
  · simp only [if_pos hover]
    have hnd : ordemRem.Nodup := hRem.nodup_iff.mpr (idxUns_nodup sel0)
    have hbound : ∀ i ∈ ordemRem, i < sel0.length := by
      intro i hi
      exact (mem_idxUns.mp (hRem.mem_iff.mp hi)).1
    have hones : ∀ i ∈ ordemRem, getq sel0 i = 1 := by
      intro i hi
      exact (mem_idxUns.mp (hRem.mem_iff.mp hi)).2
    rcases repairLoop_inv valores pesos capacidade ordemRem sel0
        (avaliar sel0 valores pesos).1 (avaliar sel0 valores pesos).2
        hnd hbound hones rfl rfl h010 with ⟨hL, h01r, hvr, hpr, hdisj⟩
    refine ⟨by rw [hL, thresholdSel_length], h01r, hvr, hpr, ?_⟩
    rcases hdisj with h | h
    · exact h
    · -- the removal order was exhausted: every entry is zero
      have hall0 : ∀ j,
          getq (repairLoop valores pesos capacidade ordemRem sel0
            (avaliar sel0 valores pesos).1 (avaliar sel0 valores pesos).2).1 j = 0 := by
        intro j
        rcases h j with hz | ⟨heq, hnin⟩
        · exact hz
        · rcases Sel01_getq h010 j with h0 | h1
          · rw [heq]; exact h0
          · exfalso
            apply hnin
            apply hRem.mem_iff.mpr
            apply mem_idxUns.mpr
            refine ⟨?_, h1⟩
            by_contra hge
            rw [getq_eq_zero_of_ge (Nat.le_of_not_lt hge)] at h1
            exact absurd h1 (by norm_num)
      rw [hpr, dot_eq_zero_left hall0]
      exact hcap
  · simp only [if_neg hover]
    exact ⟨thresholdSel_length x_frac, h010, rfl, rfl, le_of_not_lt hover⟩

/-- The repaired-and-filled candidate is 0/1, consistent, feasible, and
length-preserving. -/
theorem arredCandidato_props (x_frac valores pesos : List ℚ) (capacidade : ℚ)
    (ordemRem ordemAdd : List Nat)
    (hRem : ordemRem.Perm (idxUns (thresholdSel x_frac)))
    (hAdd : ordemAdd.Perm
      (idxZeros (arredAposReparo x_frac valores pesos capacidade ordemRem).1))
    (hcap : 0 ≤ capacidade) :
    (arredCandidato x_frac valores pesos capacidade ordemRem ordemAdd).1.length =
        x_frac.length ∧
      Sel01 (arredCandidato x_frac valores pesos capacidade ordemRem ordemAdd).1 ∧
      (arredCandidato x_frac valores pesos capacidade ordemRem ordemAdd).2.1 =
        dot (arredCandidato x_frac valores pesos capacidade ordemRem ordemAdd).1
          valores ∧
      (arredCandidato x_frac valores pesos capacidade ordemRem ordemAdd).2.2 =
        dot (arredCandidato x_frac valores pesos capacidade ordemRem ordemAdd).1
          pesos ∧
      (arredCandidato x_frac valores pesos capacidade ordemRem ordemAdd).2.2 ≤
        capacidade := by
  rcases arredAposReparo_props x_frac valores pesos capacidade ordemRem hRem hcap with
    ⟨hL1, h011, hv1, hp1, hfeas1⟩
  unfold arredCandidato
  set s1 := arredAposReparo x_frac valores pesos capacidade ordemRem with hs1
  by_cases hslack : s1.2.2 < capacidade
  · simp only [if_pos hslack]
    have hnd : ordemAdd.Nodup := hAdd.nodup_iff.mpr (idxZeros_nodup s1.1)
    have hbound : ∀ j ∈ ordemAdd, j < s1.1.length := by
      intro j hj
      exact (mem_idxZeros.mp (hAdd.mem_iff.mp hj)).1
    have hzeros : ∀ j ∈ ordemAdd, getq s1.1 j = 0 := by
      intro j hj
      exact (mem_idxZeros.mp (hAdd.mem_iff.mp hj)).2
    rcases fillLoop_inv valores pesos capacidade ordemAdd s1.1 s1.2.1 s1.2.2
        hnd hbound hzeros hv1 hp1 h011 with ⟨hL, h01r, hvr, hpr, hfeas⟩
    exact ⟨by rw [hL, hL1], h01r, hvr, hpr, hfeas hfeas1⟩
  · simp only [if_neg hslack]
    exact ⟨hL1, h011, hv1, hp1, hfeas1⟩

/-- Case analysis of `np.argmax` on a three-element list. -/
theorem argmax3_spec (a b c : ℚ) :
    (argmaxIdx [a, b, c] = 0 ∧ b ≤ a ∧ c ≤ a) ∨
      (argmaxIdx [a, b, c] = 1 ∧ a < b ∧ c ≤ b) ∨
      (argmaxIdx [a, b, c] = 2 ∧ a ≤ c ∧ b ≤ c) := by
  simp only [argmaxIdx, argmaxAux]
  by_cases h1 : a < b
  · by_cases h2 : b < c
    · simp only [if_pos h1, if_pos h2]
      exact Or.inr (Or.inr ⟨trivial, by linarith, by linarith⟩)
    · simp only [if_pos h1, if_neg h2]
      exact Or.inr (Or.inl ⟨trivial, h1, by linarith⟩)
  · by_cases h3 : a < c
    · simp only [if_neg h1, if_pos h3]
      exact Or.inr (Or.inr ⟨trivial, by linarith, by linarith⟩)
    · simp only [if_neg h1, if_neg h3]
      exact Or.inl ⟨trivial, by linarith, by linarith⟩

/-- `np.argmax` returns index 0 on ties: if the first entry is maximal it wins. -/
theorem argmax3_first (a b c : ℚ) (hb : b ≤ a) (hc : c ≤ a) :
    argmaxIdx [a, b, c] = 0 := by
  simp only [argmaxIdx, argmaxAux]
  rw [if_neg (not_lt.mpr hb), if_neg (not_lt.mpr hc)]

theorem map_astype_of_Sel01 {sel : List ℚ} (h : Sel01 sel) :
    sel.map astype_int = sel := by
  have he : ∀ q ∈ sel, astype_int q = q := by
    intro q hq
    rcases h q hq with rfl | rfl <;> rfl
  rw [List.map_congr_left he]
  exact List.map_id sel

theorem mkTournament_idx0 (cand single : List ℚ × ℚ × ℚ) (sg : List ℚ)
    (valores pesos : List ℚ)
    (h : argmaxIdx [cand.2.1, single.2.1, dot sg valores] = 0) :
    mkTournament cand single sg valores pesos =
      ⟨cand.1.map astype_int, cand.2.1, cand.2.2, "Arredondamento"⟩ := by
  simp only [mkTournament, avaliar, List.map_cons, List.map_nil]
  rw [h]
  rfl

theorem mkTournament_idx1 (cand single : List ℚ × ℚ × ℚ) (sg : List ℚ)
    (valores pesos : List ℚ)
    (h : argmaxIdx [cand.2.1, single.2.1, dot sg valores] = 1) :
    mkTournament cand single sg valores pesos =
      ⟨single.1.map astype_int, single.2.1, single.2.2, "Arredondamento"⟩ := by
  simp only [mkTournament, avaliar, List.map_cons, List.map_nil]
  rw [h]
  rfl

theorem mkTournament_idx2 (cand single : List ℚ × ℚ × ℚ) (sg : List ℚ)
    (valores pesos : List ℚ)
    (h : argmaxIdx [cand.2.1, single.2.1, dot sg valores] = 2) :
    mkTournament cand single sg valores pesos =
      ⟨sg.map astype_int, dot sg valores, dot sg pesos, "Arredondamento"⟩ := by
  simp only [mkTournament, avaliar, List.map_cons, List.map_nil]
  rw [h]
  rfl

/-- Specification of the tournament: given three 0/1, consistent, feasible
candidates, the winner is 0/1, consistent, feasible, and its value dominates
the greedy competitor's and the best single item's values. -/
theorem mkTournament_props (cand single : List ℚ × ℚ × ℚ) (sg : List ℚ)
    (valores pesos : List ℚ) (capacidade : ℚ)
    (hc01 : Sel01 cand.1) (hcv : cand.2.1 = dot cand.1 valores)
    (hcp : cand.2.2 = dot cand.1 pesos) (hcfeas : cand.2.2 ≤ capacidade)
    (hs01 : Sel01 single.1) (hsv : single.2.1 = dot single.1 valores)
    (hsp : single.2.2 = dot single.1 pesos) (hsfeas : single.2.2 ≤ capacidade)
    (hsg01 : Sel01 sg) (hsgfeas : dot sg pesos ≤ capacidade) :
    Sel01 (mkTournament cand single sg valores pesos).selecao ∧
      (mkTournament cand single sg valores pesos).valor =
        dot (mkTournament cand single sg valores pesos).selecao valores ∧
      (mkTournament cand single sg valores pesos).peso =
        dot (mkTournament cand single sg valores pesos).selecao pesos ∧
      (mkTournament cand single sg valores pesos).peso ≤ capacidade ∧
      dot sg valores ≤ (mkTournament cand single sg valores pesos).valor ∧
      single.2.1 ≤ (mkTournament cand single sg valores pesos).valor := by
  rcases argmax3_spec cand.2.1 single.2.1 (dot sg valores) with
    ⟨hidx, hba, hca⟩ | ⟨hidx, hab, hcb⟩ | ⟨hidx, hac, hbc⟩
  · rw [mkTournament_idx0 cand single sg valores pesos hidx]
    rw [map_astype_of_Sel01 hc01]
    exact ⟨hc01, hcv, hcp, hcp ▸ hcfeas, hca, hba⟩
  · rw [mkTournament_idx1 cand single sg valores pesos hidx]
    rw [map_astype_of_Sel01 hs01]
    exact ⟨hs01, hsv, hsp, hsp ▸ hsfeas, hcb, le_refl _⟩
  · rw [mkTournament_idx2 cand single sg valores pesos hidx]
    rw [map_astype_of_Sel01 hsg01]
    exact ⟨hsg01, rfl, rfl, hsgfeas, le_refl _, hbc⟩

/-- Full specification of `arredondamento_reparo`: the returned record is 0/1,
internally consistent, within capacity, at least as valuable as the greedy
competitor and the best single item, and ties are resolved in favour of the
repaired-and-filled candidate. -/
theorem arredondamento_props (x_frac valores pesos : List ℚ) (capacidade : ℚ)
    (ordemRem ordemAdd : List Nat) (selecao_gulosa : Option (List ℚ))
    (ordemGulosa : List Nat)
    (hRem : ordemRem.Perm (idxUns (thresholdSel x_frac)))
    (hAdd : ordemAdd.Perm
      (idxZeros (arredAposReparo x_frac valores pesos capacidade ordemRem).1))
    (hcap : 0 ≤ capacidade)
    (hsg01 : Sel01 (gulosaResolvida valores pesos capacidade selecao_gulosa ordemGulosa))
    (hsgfeas :
      dot (gulosaResolvida valores pesos capacidade selecao_gulosa ordemGulosa) pesos ≤
        capacidade) :
    Sel01 (arredondamento_reparo x_frac valores pesos capacidade ordemRem ordemAdd
        selecao_gulosa ordemGulosa).selecao ∧
      (arredondamento_reparo x_frac valores pesos capacidade ordemRem ordemAdd
          selecao_gulosa ordemGulosa).valor =
        dot (arredondamento_reparo x_frac valores pesos capacidade ordemRem ordemAdd
          selecao_gulosa ordemGulosa).selecao valores ∧
      (arredondamento_reparo x_frac valores pesos capacidade ordemRem ordemAdd
          selecao_gulosa ordemGulosa).peso =
        dot (arredondamento_reparo x_frac valores pesos capacidade ordemRem ordemAdd
          selecao_gulosa ordemGulosa).selecao pesos ∧
      (arredondamento_reparo x_frac valores pesos capacidade ordemRem ordemAdd
          selecao_gulosa ordemGulosa).peso ≤ capacidade ∧
      dot (gulosaResolvida valores pesos capacidade selecao_gulosa ordemGulosa)
          valores ≤
        (arredondamento_reparo x_frac valores pesos capacidade ordemRem ordemAdd
          selecao_gulosa ordemGulosa).valor ∧
      (melhor_item_que_cabe valores pesos capacidade).2.1 ≤
        (arredondamento_reparo x_frac valores pesos capacidade ordemRem ordemAdd
          selecao_gulosa ordemGulosa).valor := by
  rcases arredCandidato_props x_frac valores pesos capacidade ordemRem ordemAdd
    hRem hAdd hcap with ⟨hcL, hc01, hcv, hcp, hcfeas⟩
  rcases melhor_item_feasible valores pesos capacidade hcap with
    ⟨hs01, hsfeas, hsL, hsv, hsp⟩
  exact mkTournament_props _ _ _ valores pesos capacidade hc01 hcv hcp hcfeas
    hs01 hsv hsp hsfeas hsg01 hsgfeas

/-- Tie-breaking of the tournament: when the repaired-and-filled candidate is
at least as valuable as both competitors, it is the one returned. -/
theorem arredondamento_tie (x_frac valores pesos : List ℚ) (capacidade : ℚ)
    (ordemRem ordemAdd : List Nat) (selecao_gulosa : Option (List ℚ))
    (ordemGulosa : List Nat)
    (hb : (melhor_item_que_cabe valores pesos capacidade).2.1 ≤
      (arredCandidato x_frac valores pesos capacidade ordemRem ordemAdd).2.1)
    (hc : dot (gulosaResolvida valores pesos capacidade selecao_gulosa ordemGulosa)
        valores ≤
      (arredCandidato x_frac valores pesos capacidade ordemRem ordemAdd).2.1) :
    arredondamento_reparo x_frac valores pesos capacidade ordemRem ordemAdd
        selecao_gulosa ordemGulosa =
      ⟨(arredCandidato x_frac valores pesos capacidade ordemRem ordemAdd).1.map
          astype_int,
        (arredCandidato x_frac valores pesos capacidade ordemRem ordemAdd).2.1,
        (arredCandidato x_frac valores pesos capacidade ordemRem ordemAdd).2.2,
        "Arredondamento"⟩ := by
  exact mkTournament_idx0 _ _ _ valores pesos (argmax3_first _ _ _ hb hc)

theorem acharSwap_found (valores pesos : List ℚ) (capacidade peso : ℚ)
    (nao : List Nat) :
    ∀ (sim : List Nat) (i j : Nat),
      acharSwap valores pesos capacidade peso nao sim = some (i, j) →
      i ∈ sim ∧ j ∈ nao ∧
        peso + (getq pesos j - getq pesos i) ≤ capacidade ∧
        0 < getq valores j - getq valores i := by
  intro sim
  induction sim with
  | nil => intro i j h; cases h
  | cons i' simRest ih =>
    intro i j h
    simp only [acharSwap] at h
    rcases hf : nao.find? (fun j =>
        decide (peso + (getq pesos j - getq pesos i') ≤ capacidade) &&
          decide (0 < getq valores j - getq valores i')) with _ | j'
    · rw [hf] at h
      rcases ih i j h with ⟨h1, h2, h3, h4⟩
      exact ⟨List.mem_cons_of_mem i' h1, h2, h3, h4⟩
    · rw [hf] at h
      obtain ⟨rfl, rfl⟩ : i' = i ∧ j' = j := by
        injection h with h1; injection h1 with h2 h3; exact ⟨h2, h3⟩
      have hp := List.find?_some hf
      have hm := List.mem_of_find?_eq_some hf
      rw [Bool.and_eq_true, decide_eq_true_eq, decide_eq_true_eq] at hp
      exact ⟨List.mem_cons_self _ _, hm, hp.1, hp.2⟩

/-- A committed step preserves well-formedness and the selection length,
strictly increases the tracked value, and lands within the capacity. -/
theorem blStep_facts (valores pesos : List ℚ) (capacidade : ℚ) (st st' : BLState)
    (hwf : BLWf valores pesos st)
    (h : blStep valores pesos capacidade st = some st') :
    BLWf valores pesos st' ∧ st.valor < st'.valor ∧
      st'.selecao.length = st.selecao.length ∧ st'.peso ≤ capacidade := by
  rcases hwf with ⟨h01, hv, hp⟩
  unfold blStep acharMovimento at h
  rcases ha : acharAdd valores pesos capacidade st.valor st.peso
      (idxZeros st.selecao) with _ | j
  · rw [ha] at h
    rcases hs : acharSwap valores pesos capacidade st.peso (idxZeros st.selecao)
        (idxUns st.selecao) with _ | ⟨i, j⟩
    · rw [hs] at h; cases h
    · rw [hs] at h
      have hst' : aplicarMovimento valores pesos st (Sum.inr (i, j)) = st' := by
        simpa using h
      rcases acharSwap_found valores pesos capacidade st.peso
          (idxZeros st.selecao) (idxUns st.selecao) i j hs with ⟨hiu, hjz, hfeas, hgain⟩
      have hi := mem_idxUns.mp hiu
      have hj := mem_idxZeros.mp hjz
      have hij : i ≠ j := by
        intro hEq
        rw [hEq, hj.2] at hi
        exact absurd hi.2 (by norm_num)
      rw [← hst']
      simp only [aplicarMovimento]
      have hdotv : dot ((st.selecao.set i 0).set j 1) valores =
          dot st.selecao valores + (getq valores j - getq valores i) := by
        rw [dot_set _ _ _ _ (by simpa using hj.1),
          getq_set_ne _ _ _ _ hij, hj.2,
          dot_set _ _ _ _ hi.1, hi.2]
        ring
      have hdotp : dot ((st.selecao.set i 0).set j 1) pesos =
          dot st.selecao pesos + (getq pesos j - getq pesos i) := by
        rw [dot_set _ _ _ _ (by simpa using hj.1),
          getq_set_ne _ _ _ _ hij, hj.2,
          dot_set _ _ _ _ hi.1, hi.2]
        ring
      refine ⟨⟨Sel01_set (Sel01_set h01 (Or.inl rfl) i) (Or.inr rfl) j, ?_, ?_⟩,
        by linarith, by simp, hfeas⟩
      · rw [hdotv, hv]
      · rw [hdotp, hp]
  · rw [ha] at h
    have hst' : aplicarMovimento valores pesos st (Sum.inl j) = st' := by
      simpa using h
    have hpj := List.find?_some ha
    have hjm := List.mem_of_find?_eq_some ha
    rw [Bool.and_eq_true, Bool.and_eq_true, decide_eq_true_eq, decide_eq_true_eq,
      decide_eq_true_eq] at hpj
    rcases hpj with ⟨⟨hfit, _⟩, hval⟩
    have hj := mem_idxZeros.mp hjm
    rw [← hst']
    simp only [aplicarMovimento]
    have hdotv : dot (st.selecao.set j 1) valores =
        dot st.selecao valores + getq valores j := by
      rw [dot_set _ _ _ _ hj.1, hj.2]
      ring
    have hdotp : dot (st.selecao.set j 1) pesos =
        dot st.selecao pesos + getq pesos j := by
      rw [dot_set _ _ _ _ hj.1, hj.2]
      ring
    refine ⟨⟨Sel01_set h01 (Or.inr rfl) j, ?_, ?_⟩, hval, by simp, hfit⟩
    · rw [hdotv, hv]
    · rw [hdotp, hp]

/-- The loop preserves well-formedness, never decreases the tracked value,
executes at most `fuel` iterations, preserves the selection length, keeps a
feasible state feasible, and returns the state unchanged at a local optimum. -/
theorem blLoop_facts (valores pesos : List ℚ) (capacidade : ℚ) :
    ∀ (fuel : Nat) (st : BLState),
      BLWf valores pesos st →
      BLWf valores pesos (blLoop valores pesos capacidade fuel st).1 ∧
        st.valor ≤ (blLoop valores pesos capacidade fuel st).1.valor ∧
        (blLoop valores pesos capacidade fuel st).2 ≤ fuel ∧
        (blLoop valores pesos capacidade fuel st).1.selecao.length =
          st.selecao.length ∧
        (st.peso ≤ capacidade →
          (blLoop valores pesos capacidade fuel st).1.peso ≤ capacidade) := by
  intro fuel
  induction fuel with
  | zero =>
    intro st hwf
    exact ⟨hwf, le_refl _, le_refl _, rfl, fun h => h⟩
  | succ f ih =>
    intro st hwf
    rcases hstep : blStep valores pesos capacidade st with _ | st'
    · simp only [blLoop, hstep]
      exact ⟨hwf, le_refl _, by omega, trivial, fun h => h⟩
    · rcases blStep_facts valores pesos capacidade st st' hwf hstep with
        ⟨hwf', hlt, hlen', hfeas'⟩
      rcases ih st' hwf' with ⟨hwfr, hler, hiter, hlenr, hfeasr⟩
      simp only [blLoop, hstep]
      exact ⟨hwfr, by linarith, by omega, by rw [hlenr, hlen'],
        fun _ => hfeasr hfeas'⟩

theorem insertLinha_perm (a : LinhaTabela) (l : List LinhaTabela) :
    (insertLinha a l).Perm (a :: l) := by
  induction l with
  | nil => exact List.Perm.refl _
  | cons b rest ih =>
    simp only [insertLinha]
    by_cases h : linhaLe a b
    · rw [if_pos h]
    · rw [if_neg h]
      exact (List.Perm.cons b ih).trans (List.Perm.swap a b rest)

theorem sortLinhas_perm (l : List LinhaTabela) : (sortLinhas l).Perm l := by
  induction l with
  | nil => exact List.Perm.refl _
  | cons a rest ih =>
    exact (insertLinha_perm a (sortLinhas rest)).trans (List.Perm.cons a ih)

theorem foldl_collect (resultados : List (Except String LinhaTabela)) :
    ∀ acc : List LinhaTabela,
      resultados.foldl
          (fun acc r =>
            match r with
            | Except.ok linha => acc ++ [linha]
            | Except.error _ => acc) acc =
        acc ++ resultados.filterMap Except.toOption := by
  induction resultados with
  | nil => intro acc; simp
  | cons r rest ih =>
    intro acc
    cases r with
    | ok linha =>
      simp only [List.foldl_cons, List.filterMap_cons, ih, Except.toOption]
      simp
    | error e =>
      simp only [List.foldl_cons, List.filterMap_cons, ih, Except.toOption]

theorem lerA_escrever_ne (m : Mem) (r r' i : Nat) (q : ℚ) (h : r ≠ r') :
    lerA (escrever m r i q) r' = lerA m r' := by
  simp [lerA, escrever, List.getD_eq_getElem?_getD, List.getElem?_set_ne h]

theorem lerA_alocar_lt (m : Mem) (a : List ℚ) (r : Nat) (h : r < m.length) :
    lerA (m ++ [a]) r = lerA m r := by
  simp [lerA, List.getD_eq_getElem?_getD, List.getElem?_append_left h]

/-! ### Frame lemmas: the solvers write only their freshly allocated arrays -/

theorem escrever_length (m : Mem) (r i : Nat) (q : ℚ) :
    (escrever m r i q).length = m.length := by
  simp [escrever]

theorem gulosaLoopMem_frame (selR wR : Nat) :
    ∀ (l : List Nat) (m : Mem) (restante : ℚ),
      (∀ r, r ≠ selR →
        lerA (gulosaLoopMem selR wR l m restante) r = lerA m r) ∧
        (gulosaLoopMem selR wR l m restante).length = m.length := by
  intro l
  induction l with
  | nil => intro m restante; exact ⟨fun r _ => rfl, rfl⟩
  | cons i rest ih =>
    intro m restante
    simp only [gulosaLoopMem]
    by_cases hfit : getq (lerA m wR) i ≤ restante
    · rw [if_pos hfit]
      rcases ih (escrever m selR i 1) (restante - getq (lerA m wR) i) with ⟨hf, hl⟩
      refine ⟨?_, by rw [hl, escrever_length]⟩
      intro r hr
      rw [hf r hr, lerA_escrever_ne _ _ _ _ _ (Ne.symm hr)]
    · rw [if_neg hfit]
      exact ih m restante

theorem gulosa_ratio_mem_frame (m : Mem) (vR wR : Nat) (capacidade : ℚ)
    (ordem : List Nat) :
    (∀ r, r < m.length →
      lerA (gulosa_ratio_mem m vR wR capacidade ordem).1 r = lerA m r) ∧
      (gulosa_ratio_mem m vR wR capacidade ordem).1.length = m.length + 1 := by
  simp only [gulosa_ratio_mem, alocar]
  rcases gulosaLoopMem_frame m.length wR ordem
    (m ++ [List.replicate (lerA m vR).length 0]) capacidade with ⟨hf, hl⟩
  constructor
  · intro r hr
    rw [hf r (Nat.ne_of_lt hr), lerA_alocar_lt m _ r hr]
  · rw [hl]
    simp

theorem rlLoopMem_frame (xR vR wR : Nat) :
    ∀ (l : List Nat) (m : Mem) (restante valor : ℚ),
      (∀ r, r ≠ xR →
        lerA (rlLoopMem xR vR wR l m restante valor).1 r = lerA m r) ∧
        (rlLoopMem xR vR wR l m restante valor).1.length = m.length := by
  intro l
  induction l with
  | nil => intro m restante valor; exact ⟨fun r _ => rfl, rfl⟩
  | cons i rest ih =>
    intro m restante valor
    simp only [rlLoopMem]
    by_cases hg : restante ≤ eps
    · rw [if_pos hg]
      exact ⟨fun r _ => rfl, rfl⟩
    · rw [if_neg hg]
      by_cases hfit : getq (lerA m wR) i ≤ restante
      · rw [if_pos hfit]
        rcases ih (escrever m xR i 1) (restante - getq (lerA m wR) i)
          (valor + getq (lerA m vR) i) with ⟨hf, hl⟩
        refine ⟨?_, by rw [hl, escrever_length]⟩
        intro r hr
        rw [hf r hr, lerA_escrever_ne _ _ _ _ _ (Ne.symm hr)]
      · rw [if_neg hfit]
        refine ⟨?_, by simp [escrever_length]⟩
        intro r hr
        exact lerA_escrever_ne _ _ _ _ _ (Ne.symm hr)

theorem relaxacao_linear_mem_frame (m : Mem) (vR wR : Nat) (capacidade : ℚ)
    (ordem : List Nat) :
    ∀ r, r < m.length →
      lerA (relaxacao_linear_mem m vR wR capacidade ordem).1 r = lerA m r := by
  intro r hr
  simp only [relaxacao_linear_mem, alocar]
  rcases rlLoopMem_frame m.length vR wR ordem
    (m ++ [List.replicate (lerA m vR).length 0]) capacidade 0 with ⟨hf, _⟩
  rw [hf r (Nat.ne_of_lt hr), lerA_alocar_lt m _ r hr]

theorem repairLoopMem_frame (selR vR wR : Nat) (capacidade : ℚ) :
    ∀ (l : List Nat) (m : Mem) (valor peso : ℚ),
      (∀ r, r ≠ selR →
        lerA (repairLoopMem selR vR wR capacidade l m valor peso).1 r = lerA m r) ∧
        (repairLoopMem selR vR wR capacidade l m valor peso).1.length = m.length := by
  intro l
  induction l with
  | nil => intro m valor peso; exact ⟨fun r _ => rfl, rfl⟩
  | cons i rest ih =>
    intro m valor peso
    simp only [repairLoopMem]
    by_cases hfits : peso ≤ capacidade
    · rw [if_pos hfits]
      exact ⟨fun r _ => rfl, rfl⟩
    · rw [if_neg hfits]
      rcases ih (escrever m selR i 0) (valor - getq (lerA m vR) i)
        (peso - getq (lerA m wR) i) with ⟨hf, hl⟩
      refine ⟨?_, by rw [hl, escrever_length]⟩
      intro r hr
      rw [hf r hr, lerA_escrever_ne _ _ _ _ _ (Ne.symm hr)]

theorem fillLoopMem_frame (selR vR wR : Nat) (capacidade : ℚ) :
    ∀ (l : List Nat) (m : Mem) (valor peso : ℚ),
      (∀ r, r ≠ selR →
        lerA (fillLoopMem selR vR wR capacidade l m valor peso).1 r = lerA m r) ∧
        (fillLoopMem selR vR wR capacidade l m valor peso).1.length = m.length := by
  intro l
  induction l with
  | nil => intro m valor peso; exact ⟨fun r _ => rfl, rfl⟩
  | cons j rest ih =>
    intro m valor peso
    simp only [fillLoopMem]
    by_cases hfits : peso + getq (lerA m wR) j ≤ capacidade
    · rw [if_pos hfits]
      rcases ih (escrever m selR j 1) (valor + getq (lerA m vR) j)
        (peso + getq (lerA m wR) j) with ⟨hf, hl⟩
      refine ⟨?_, by rw [hl, escrever_length]⟩
      intro r hr
      rw [hf r hr, lerA_escrever_ne _ _ _ _ _ (Ne.symm hr)]
    · rw [if_neg hfits]
      exact ih m valor peso

theorem blLoopMem_frame (selR vR wR : Nat) (capacidade : ℚ) :
    ∀ (fuel : Nat) (m : Mem) (valor peso : ℚ),
      (∀ r, r ≠ selR →
        lerA (blLoopMem selR vR wR capacidade fuel m valor peso).1 r = lerA m r) ∧
        (blLoopMem selR vR wR capacidade fuel m valor peso).1.length = m.length := by
  intro fuel
  induction fuel with
  | zero => intro m valor peso; exact ⟨fun r _ => rfl, rfl⟩
  | succ f ih =>
    intro m valor peso
    simp only [blLoopMem]
    rcases hmov : acharMovimento (lerA m vR) (lerA m wR) capacidade
        ⟨lerA m selR, valor, peso⟩ with _ | mv
    · exact ⟨fun r _ => rfl, rfl⟩
    · rcases mv with j | ⟨i, j⟩
      · rcases ih (escrever m selR j 1) (valor + getq (lerA m vR) j)
          (peso + getq (lerA m wR) j) with ⟨hf, hl⟩
        refine ⟨?_, by rw [hl, escrever_length]⟩
        intro r hr
        rw [hf r hr, lerA_escrever_ne _ _ _ _ _ (Ne.symm hr)]
      · rcases ih (escrever (escrever m selR i 0) selR j 1)
          (valor + (getq (lerA m vR) j - getq (lerA m vR) i))
          (peso + (getq (lerA m wR) j - getq (lerA m wR) i)) with ⟨hf, hl⟩
        refine ⟨?_, by rw [hl, escrever_length, escrever_length]⟩
        intro r hr
        rw [hf r hr, lerA_escrever_ne _ _ _ _ _ (Ne.symm hr),
          lerA_escrever_ne _ _ _ _ _ (Ne.symm hr)]

theorem arredondamento_reparo_mem_frame (m : Mem) (xR vR wR : Nat)
    (capacidade : ℚ) (ordemRem ordemAdd : List Nat) (sgR : Option Nat)
    (ordemGulosa : List Nat) :
    ∀ r, r < m.length →
      lerA (arredondamento_reparo_mem m xR vR wR capacidade ordemRem ordemAdd
        sgR ordemGulosa).1 r = lerA m r := by
  intro r hr
  have hne : r ≠ m.length := Nat.ne_of_lt hr
  simp only [arredondamento_reparo_mem, alocar]
  set m1 : Mem := m ++ [thresholdSel (lerA m xR)] with hm1
  have hm1len : m1.length = m.length + 1 := by simp [hm1]
  have hm1r : lerA m1 r = lerA m r := lerA_alocar_lt m _ r hr
  -- the repaired state
  set s1 := if capacidade <
      (avaliar (lerA m1 m.length) (lerA m1 vR) (lerA m1 wR)).2 then
    repairLoopMem m.length vR wR capacidade ordemRem m1
      (avaliar (lerA m1 m.length) (lerA m1 vR) (lerA m1 wR)).1
      (avaliar (lerA m1 m.length) (lerA m1 vR) (lerA m1 wR)).2
  else (m1, (avaliar (lerA m1 m.length) (lerA m1 vR) (lerA m1 wR)).1,
    (avaliar (lerA m1 m.length) (lerA m1 vR) (lerA m1 wR)).2) with hs1
  have hs1r : lerA s1.1 r = lerA m r ∧ s1.1.length = m1.length := by
    rw [hs1]
    by_cases hc : capacidade <
        (avaliar (lerA m1 m.length) (lerA m1 vR) (lerA m1 wR)).2
    · rw [if_pos hc]
      rcases repairLoopMem_frame m.length vR wR capacidade ordemRem m1 _ _ with ⟨hf, hl⟩
      exact ⟨by rw [hf r hne, hm1r], hl⟩
    · rw [if_neg hc]
      exact ⟨hm1r, rfl⟩
  set s2 := if s1.2.2 < capacidade then
    fillLoopMem m.length vR wR capacidade ordemAdd s1.1 s1.2.1 s1.2.2
  else s1 with hs2
  have hs2r : lerA s2.1 r = lerA m r ∧ s2.1.length = m1.length := by
    rw [hs2]
    by_cases hc : s1.2.2 < capacidade
    · rw [if_pos hc]
      rcases fillLoopMem_frame m.length vR wR capacidade ordemAdd s1.1 s1.2.1
        s1.2.2 with ⟨hf, hl⟩
      exact ⟨by rw [hf r hne, hs1r.1], by rw [hl, hs1r.2]⟩
    · rw [if_neg hc]
      exact hs1r
  have hrlt2 : r < s2.1.length := by
    rw [hs2r.2, hm1len]
    omega
  have hm3r : lerA (s2.1 ++
      [(melhor_item_que_cabe (lerA s2.1 vR) (lerA s2.1 wR) capacidade).1]) r =
      lerA m r := by
    rw [lerA_alocar_lt s2.1 _ r hrlt2, hs2r.1]
  have hm3len : (s2.1 ++
      [(melhor_item_que_cabe (lerA s2.1 vR) (lerA s2.1 wR) capacidade).1]).length =
      m1.length + 1 := by
    rw [List.length_append, hs2r.2]
    rfl
  rcases sgR with _ | sgr
  · -- greedy fallback: run the heap greedy, then the final astype allocation
    rcases gulosa_ratio_mem_frame (s2.1 ++
        [(melhor_item_que_cabe (lerA s2.1 vR) (lerA s2.1 wR) capacidade).1])
        vR wR capacidade ordemGulosa with ⟨hgf, hgl⟩
    have hrlt3 : r < (s2.1 ++
        [(melhor_item_que_cabe (lerA s2.1 vR) (lerA s2.1 wR) capacidade).1]).length := by
      rw [hm3len, hm1len]; omega
    have hrlt4 : r < (gulosa_ratio_mem (s2.1 ++
        [(melhor_item_que_cabe (lerA s2.1 vR) (lerA s2.1 wR) capacidade).1])
        vR wR capacidade ordemGulosa).1.length := by
      rw [hgl]; omega
    rw [lerA_alocar_lt _ _ r hrlt4, hgf r hrlt3, hm3r]
  · -- supplied greedy reference: read-only
    have hrlt3 : r < (s2.1 ++
        [(melhor_item_que_cabe (lerA s2.1 vR) (lerA s2.1 wR) capacidade).1]).length := by
      rw [hm3len, hm1len]; omega
    rw [lerA_alocar_lt _ _ r hrlt3, hm3r]

theorem busca_local_mem_frame (m : Mem) (vR wR : Nat) (capacidade : ℚ)
    (seedR : Option Nat) (ordemGulosa : List Nat) (max_iter : Nat) :
    ∀ r, r < m.length →
      lerA (busca_local_mem m vR wR capacidade seedR ordemGulosa max_iter).1 r =
        lerA m r := by
  intro r hr
  simp only [busca_local_mem, alocar]
  rcases seedR with _ | sr
  · rcases gulosa_ratio_mem_frame m vR wR capacidade ordemGulosa with ⟨hgf, hgl⟩
    rcases blLoopMem_frame (gulosa_ratio_mem m vR wR capacidade ordemGulosa).1.length
      vR wR capacidade max_iter _ _ _ with ⟨hbf, _⟩
    have hrne : r ≠ (gulosa_ratio_mem m vR wR capacidade ordemGulosa).1.length := by
      rw [hgl]; omega
    have hrlt : r < (gulosa_ratio_mem m vR wR capacidade ordemGulosa).1.length := by
      rw [hgl]; omega
    rw [hbf r hrne, lerA_alocar_lt _ _ r hrlt, hgf r hr]
  · rcases blLoopMem_frame m.length vR wR capacidade max_iter _ _ _ with ⟨hbf, _⟩
    rw [hbf r (Nat.ne_of_lt hr), lerA_alocar_lt m _ r hr]

/-- The harness output is a permutation of the successfully processed rows:
each failure is skipped (the run continues), each success contributes exactly
one row. -/
theorem executar_comparacao_perm (resultados : List (Except String LinhaTabela)) :
    (executar_comparacao resultados).Perm
      (resultados.filterMap Except.toOption) := by
  unfold executar_comparacao
  rw [foldl_collect resultados []]
  simp only [List.nil_append]
  by_cases h : (resultados.filterMap Except.toOption).isEmpty
  · rw [if_pos h]
  · rw [if_neg h]
    exact sortLinhas_perm _

/-! ### Top-level bridges for the claims -/

theorem getq_mem {xs : List ℚ} {i : Nat} (h : i < xs.length) : getq xs i ∈ xs := by
  simp only [getq, List.getD_eq_getElem?_getD]
  rw [List.getElem?_eq_getElem h]
  exact List.getElem_mem h

/-- A committed local-search move strictly increases the tracked value
(no well-formedness needed: the scan predicates themselves enforce it). -/
theorem blStep_mono (valores pesos : List ℚ) (capacidade : ℚ) (st st' : BLState)
    (h : blStep valores pesos capacidade st = some st') : st.valor < st'.valor := by
  unfold blStep acharMovimento at h
  rcases ha : acharAdd valores pesos capacidade st.valor st.peso
      (idxZeros st.selecao) with _ | j
  · rw [ha] at h
    rcases hs : acharSwap valores pesos capacidade st.peso (idxZeros st.selecao)
        (idxUns st.selecao) with _ | ⟨i, j⟩
    · rw [hs] at h; cases h
    · rw [hs] at h
      have hst' : aplicarMovimento valores pesos st (Sum.inr (i, j)) = st' := by
        simpa using h
      rcases acharSwap_found valores pesos capacidade st.peso
          (idxZeros st.selecao) (idxUns st.selecao) i j hs with ⟨_, _, _, hgain⟩
      rw [← hst']
      simp only [aplicarMovimento]
      linarith
  · rw [ha] at h
    have hst' : aplicarMovimento valores pesos st (Sum.inl j) = st' := by
      simpa using h
    have hpj := List.find?_some ha
    rw [Bool.and_eq_true, Bool.and_eq_true, decide_eq_true_eq, decide_eq_true_eq,
      decide_eq_true_eq] at hpj
    rw [← hst']
    simp only [aplicarMovimento]
    exact hpj.2

/-- The value sequence of the loop is non-decreasing. -/
theorem blLoop_mono (valores pesos : List ℚ) (capacidade : ℚ) :
    ∀ (fuel : Nat) (st : BLState),
      st.valor ≤ (blLoop valores pesos capacidade fuel st).1.valor := by
  intro fuel
  induction fuel with
  | zero => intro st; exact le_refl _
  | succ f ih =>
    intro st
    rcases hstep : blStep valores pesos capacidade st with _ | st'
    · simp only [blLoop, hstep]
      exact le_refl _
    · simp only [blLoop, hstep]
      have h1 := blStep_mono valores pesos capacidade st st' hstep
      have h2 := ih st'
      exact le_trans (le_of_lt h1) h2

/-- The loop executes at most `fuel` iterations. -/
theorem blLoop_count (valores pesos : List ℚ) (capacidade : ℚ) :
    ∀ (fuel : Nat) (st : BLState),
      (blLoop valores pesos capacidade fuel st).2 ≤ fuel := by
  intro fuel
  induction fuel with
  | zero => intro st; exact le_refl _
  | succ f ih =>
    intro st
    rcases hstep : blStep valores pesos capacidade st with _ | st'
    · simp only [blLoop, hstep]
      omega
    · simp only [blLoop, hstep]
      have := ih st'
      omega

/-- At a local optimum the loop stops immediately, returning the state
unchanged after the single unproductive iteration. -/
theorem blLoop_localopt (valores pesos : List ℚ) (capacidade : ℚ)
    (st : BLState) (f : Nat)
    (hno : blStep valores pesos capacidade st = none) :
    blLoop valores pesos capacidade (f + 1) st = (st, 1) := by
  simp only [blLoop, hno]

/-- `busca_local` with a supplied 0/1 feasible seed: the result is a 0/1
selection, internally consistent, within capacity, worth at least the seed,
obtained in at most `max_iter` iterations, of unchanged length. -/
theorem busca_local_props (valores pesos : List ℚ) (capacidade : ℚ)
    (s : List ℚ) (ordemGulosa : List Nat) (max_iter : Nat)
    (h01 : Sel01 s) (hfeas : dot s pesos ≤ capacidade) :
    Sel01 (busca_local valores pesos capacidade (some s) ordemGulosa
        max_iter).1.selecao ∧
      (busca_local valores pesos capacidade (some s) ordemGulosa
          max_iter).1.valor =
        dot (busca_local valores pesos capacidade (some s) ordemGulosa
          max_iter).1.selecao valores ∧
      (busca_local valores pesos capacidade (some s) ordemGulosa
          max_iter).1.peso =
        dot (busca_local valores pesos capacidade (some s) ordemGulosa
          max_iter).1.selecao pesos ∧
      (busca_local valores pesos capacidade (some s) ordemGulosa
          max_iter).1.peso ≤ capacidade ∧
      dot s valores ≤
        (busca_local valores pesos capacidade (some s) ordemGulosa
          max_iter).1.valor ∧
      (busca_local valores pesos capacidade (some s) ordemGulosa max_iter).2 ≤
        max_iter ∧
      (busca_local valores pesos capacidade (some s) ordemGulosa
          max_iter).1.selecao.length = s.length := by
  have hmap : s.map astype_int = s := map_astype_of_Sel01 h01
  have hbl : busca_local valores pesos capacidade (some s) ordemGulosa max_iter =
      (⟨(blLoop valores pesos capacidade max_iter
          ⟨s, dot s valores, dot s pesos⟩).1.selecao,
        (blLoop valores pesos capacidade max_iter
          ⟨s, dot s valores, dot s pesos⟩).1.valor,
        (blLoop valores pesos capacidade max_iter
          ⟨s, dot s valores, dot s pesos⟩).1.peso, "Busca Local"⟩,
        (blLoop valores pesos capacidade max_iter
          ⟨s, dot s valores, dot s pesos⟩).2) := by
    simp only [busca_local, hmap, avaliar]
  rw [hbl]
  have hwf0 : BLWf valores pesos ⟨s, dot s valores, dot s pesos⟩ :=
    ⟨h01, rfl, rfl⟩
  rcases blLoop_facts valores pesos capacidade max_iter
      ⟨s, dot s valores, dot s pesos⟩ hwf0 with ⟨hwf, _, _, hlen, hfeasr⟩
  rcases hwf with ⟨h01r, hvr, hpr⟩
  exact ⟨h01r, hvr, hpr, hfeasr hfeas,
    blLoop_mono valores pesos capacidade max_iter _,
    blLoop_count valores pesos capacidade max_iter _, hlen⟩

/-- Value of the greedy solution record (computed by `avaliar` at return). -/
theorem gulosa_valor_eq (valores pesos : List ℚ) (capacidade : ℚ)
    (ordem : List Nat) :
    (gulosa_ratio valores pesos capacidade ordem).valor =
        dot (gulosa_ratio valores pesos capacidade ordem).selecao valores ∧
      (gulosa_ratio valores pesos capacidade ordem).peso =
        dot (gulosa_ratio valores pesos capacidade ordem).selecao pesos := by
  exact ⟨rfl, rfl⟩

/-- The value returned by `relaxacao_linear` is the scan value `rlValor`. -/
theorem relaxacao_valor_eq (valores pesos : List ℚ) (capacidade : ℚ)
    (ordem : List Nat) :
    (relaxacao_linear valores pesos capacidade ordem).2.1 =
      rlValor valores pesos ordem capacidade := by
  show (rlLoop valores pesos ordem (List.replicate valores.length 0)
      capacidade 0).2.2 = rlValor valores pesos ordem capacidade
  rw [rlLoop_valor valores pesos ordem _ capacidade 0]
  exact zero_add _

/-- Any feasible 0/1 selection is worth at most the fractional scan value
(given the amended hypotheses: weights at least `1e-12`, nonnegative values,
a ratio-descending order, and no `(0, 1e-12]` capacity state). -/
theorem dot_le_rlValor (valores pesos : List ℚ) (capacidade : ℚ)
    (ordem : List Nat) (sel : List ℚ)
    (hlenp : pesos.length = valores.length)
    (hlens : sel.length = valores.length)
    (h01 : Sel01 sel)
    (hfeas : dot sel pesos ≤ capacidade)
    (hord : OrdemRazao valores pesos ordem)
    (hw : ∀ q ∈ pesos, eps ≤ q)
    (hv : ∀ q ∈ valores, 0 ≤ q)
    (hcap : 0 ≤ capacidade)
    (hok : rlOk pesos ordem capacidade = true) :
    dot sel valores ≤ rlValor valores pesos ordem capacidade := by
  have hwq : ∀ i ∈ ordem, eps ≤ getq pesos i := by
    intro i hi
    have hir : i < valores.length := List.mem_range.mp (hord.1.mem_iff.mp hi)
    exact hw _ (getq_mem (by rw [hlenp]; exact hir))
  have hvq : ∀ i ∈ ordem, 0 ≤ getq valores i := by
    intro i hi
    have hir : i < valores.length := List.mem_range.mp (hord.1.mem_iff.mp hi)
    exact hv _ (getq_mem hir)
  have hy : ∀ i ∈ ordem, 0 ≤ getq sel i ∧ getq sel i ≤ 1 := by
    intro i _
    rcases Sel01_getq h01 i with h | h <;> rw [h] <;> norm_num
  have hdotv : dot sel valores =
      sumOver ordem (fun i => getq valores i * getq sel i) := by
    rw [dot_eq_sumOver sel valores hlens.symm, hlens,
      ← sumOver_perm hord.1 (fun i => getq sel i * getq valores i)]
    exact sumOver_congr (fun i _ => mul_comm _ _)
  have hdotp : dot sel pesos =
      sumOver ordem (fun i => getq pesos i * getq sel i) := by
    rw [dot_eq_sumOver sel pesos (hlenp.trans hlens.symm), hlens,
      ← sumOver_perm hord.1 (fun i => getq sel i * getq pesos i)]
    exact sumOver_congr (fun i _ => mul_comm _ _)
  rw [hdotv]
  exact rlValor_ub valores pesos ordem capacidade (fun i => getq sel i)
    hwq hvq hord.2 hcap hok hy (by rw [← hdotp]; exact hfeas)

/-- The tournament winner's value dominates all three candidate values,
with no side conditions. -/
theorem mkTournament_value_ge (cand single : List ℚ × ℚ × ℚ) (sg : List ℚ)
    (valores pesos : List ℚ) :
    dot sg valores ≤ (mkTournament cand single sg valores pesos).valor ∧
      single.2.1 ≤ (mkTournament cand single sg valores pesos).valor ∧
      cand.2.1 ≤ (mkTournament cand single sg valores pesos).valor := by
  rcases argmax3_spec cand.2.1 single.2.1 (dot sg valores) with
    ⟨hidx, hba, hca⟩ | ⟨hidx, hab, hcb⟩ | ⟨hidx, hac, hbc⟩
  · rw [mkTournament_idx0 cand single sg valores pesos hidx]
    exact ⟨hca, hba, le_refl _⟩
  · rw [mkTournament_idx1 cand single sg valores pesos hidx]
    exact ⟨hcb, le_refl _, le_of_lt hab⟩
  · rw [mkTournament_idx2 cand single sg valores pesos hidx]
    exact ⟨le_refl _, hbc, hac⟩

/-- The tournament winner's selection is one of the three candidates. -/
theorem mkTournament_selecao_cases (cand single : List ℚ × ℚ × ℚ) (sg : List ℚ)
    (valores pesos : List ℚ) :
    (mkTournament cand single sg valores pesos).selecao = cand.1.map astype_int ∨
      (mkTournament cand single sg valores pesos).selecao =
        single.1.map astype_int ∨
      (mkTournament cand single sg valores pesos).selecao = sg.map astype_int := by
  rcases argmax3_spec cand.2.1 single.2.1 (dot sg valores) with
    ⟨hidx, _, _⟩ | ⟨hidx, _, _⟩ | ⟨hidx, _, _⟩
  · rw [mkTournament_idx0 cand single sg valores pesos hidx]
    exact Or.inl rfl
  · rw [mkTournament_idx1 cand single sg valores pesos hidx]
    exact Or.inr (Or.inl rfl)
  · rw [mkTournament_idx2 cand single sg valores pesos hidx]
    exact Or.inr (Or.inr rfl)

/-- Length of the selection returned by `arredondamento_reparo`. -/
theorem arredondamento_selecao_length (x_frac valores pesos : List ℚ)
    (capacidade : ℚ) (ordemRem ordemAdd : List Nat)
    (selecao_gulosa : Option (List ℚ)) (ordemGulosa : List Nat)
    (hRem : ordemRem.Perm (idxUns (thresholdSel x_frac)))
    (hAdd : ordemAdd.Perm
      (idxZeros (arredAposReparo x_frac valores pesos capacidade ordemRem).1))
    (hcap : 0 ≤ capacidade)
    (hlenx : x_frac.length = valores.length)
    (hsglen :
      (gulosaResolvida valores pesos capacidade selecao_gulosa ordemGulosa).length =
        valores.length) :
    (arredondamento_reparo x_frac valores pesos capacidade ordemRem ordemAdd
      selecao_gulosa ordemGulosa).selecao.length = valores.length := by
  rcases arredCandidato_props x_frac valores pesos capacidade ordemRem ordemAdd
    hRem hAdd hcap with ⟨hcL, _, _, _, _⟩
  rcases melhor_item_feasible valores pesos capacidade hcap with
    ⟨_, _, hsL, _, _⟩
  have harred : arredondamento_reparo x_frac valores pesos capacidade ordemRem
      ordemAdd selecao_gulosa ordemGulosa =
      mkTournament (arredCandidato x_frac valores pesos capacidade ordemRem ordemAdd)
        (melhor_item_que_cabe valores pesos capacidade)
        (gulosaResolvida valores pesos capacidade selecao_gulosa ordemGulosa)
        valores pesos := rfl
  rw [harred]
  rcases mkTournament_selecao_cases
      (arredCandidato x_frac valores pesos capacidade ordemRem ordemAdd)
      (melhor_item_que_cabe valores pesos capacidade)
      (gulosaResolvida valores pesos capacidade selecao_gulosa ordemGulosa)
      valores pesos with h | h | h
  · rw [h, List.length_map, hcL, hlenx]
  · rw [h, List.length_map, hsL]
  · rw [h, List.length_map, hsglen]

theorem length_filterMap_eq_countP {α β : Type} (f : α → Option β) :
    ∀ l : List α, (l.filterMap f).length = l.countP (fun a => (f a).isSome) := by
  intro l
  induction l with
  | nil => rfl
  | cons a rest ih =>
    rcases hf : f a with _ | b
    · rw [List.filterMap_cons_none hf, List.countP_cons, ih, hf]
      simp [Option.isSome]
    · rw [List.filterMap_cons_some hf, List.length_cons, List.countP_cons, ih, hf]
      simp [Option.isSome]

/-! ### Claim theorems -/

/-- C1: for every instance with strictly positive weights and capacity ≥ 0,
each integer solver — greedy-by-ratio, rounding-and-repair (its greedy
candidate supplied feasible and 0/1, as the harness does), and local search
(from a feasible 0/1 seed, as the harness seeds it) — returns a 0/1 selection
whose total weight `Σ selection[i]·weight[i]` is at most the capacity; the
argsort orders satisfy the contract the source's `np.argsort` guarantees. -/
theorem c1_integer_solvers_feasible
    (valores pesos x_frac : List ℚ) (capacidade : ℚ)
    (ordem ordemRem ordemAdd ordemGulosa : List Nat)
    (sg seed : List ℚ) (max_iter : Nat)
    (hwpos : ∀ q ∈ pesos, 0 < q)
    (hcap : 0 ≤ capacidade)
    (hperm : ordem.Perm (List.range valores.length))
    (hRem : ordemRem.Perm (idxUns (thresholdSel x_frac)))
    (hAdd : ordemAdd.Perm
      (idxZeros (arredAposReparo x_frac valores pesos capacidade ordemRem).1))
    (hsg01 : Sel01 sg) (hsgfeas : dot sg pesos ≤ capacidade)
    (hseed01 : Sel01 seed) (hseedfeas : dot seed pesos ≤ capacidade) :
    (Sel01 (gulosa_ratio valores pesos capacidade ordem).selecao ∧
        dot (gulosa_ratio valores pesos capacidade ordem).selecao pesos ≤
          capacidade) ∧
      (Sel01 (arredondamento_reparo x_frac valores pesos capacidade ordemRem
          ordemAdd (some sg) ordemGulosa).selecao ∧
        dot (arredondamento_reparo x_frac valores pesos capacidade ordemRem
          ordemAdd (some sg) ordemGulosa).selecao pesos ≤ capacidade) ∧
      (Sel01 (busca_local valores pesos capacidade (some seed) ordemGulosa
          max_iter).1.selecao ∧
        dot (busca_local valores pesos capacidade (some seed) ordemGulosa
          max_iter).1.selecao pesos ≤ capacidade) := by
  refine ⟨?_, ?_, ?_⟩
  · rcases gulosa_feasible valores pesos capacidade ordem hperm hcap with
      ⟨g01, gfeas, _⟩
    exact ⟨g01, gfeas⟩
  · rcases arredondamento_props x_frac valores pesos capacidade ordemRem ordemAdd
        (some sg) ordemGulosa hRem hAdd hcap hsg01 hsgfeas with
      ⟨a01, _, hp, hple, _, _⟩
    exact ⟨a01, hp ▸ hple⟩
  · rcases busca_local_props valores pesos capacidade seed ordemGulosa max_iter
        hseed01 hseedfeas with ⟨b01, _, hp, hple, _, _, _⟩
    exact ⟨b01, hp ▸ hple⟩

theorem c1_integer_solvers_feasible_witness :
    (0 : ℚ) ≤ 50 ∧
      ((Sel01 (gulosa_ratio [60, 100, 120] [10, 20, 30] 50 [0, 1, 2]).selecao ∧
          dot (gulosa_ratio [60, 100, 120] [10, 20, 30] 50 [0, 1, 2]).selecao
            [10, 20, 30] ≤ 50) ∧
        (Sel01 (arredondamento_reparo [1, 1, 2/3] [60, 100, 120] [10, 20, 30] 50
            [2, 1, 0] [2] (some [1, 1, 0]) [0, 1, 2]).selecao ∧
          dot (arredondamento_reparo [1, 1, 2/3] [60, 100, 120] [10, 20, 30] 50
            [2, 1, 0] [2] (some [1, 1, 0]) [0, 1, 2]).selecao [10, 20, 30] ≤ 50) ∧
        (Sel01 (busca_local [60, 100, 120] [10, 20, 30] 50 (some [1, 1, 0])
            [0, 1, 2] 10000).1.selecao ∧
          dot (busca_local [60, 100, 120] [10, 20, 30] 50 (some [1, 1, 0])
            [0, 1, 2] 10000).1.selecao [10, 20, 30] ≤ 50)) :=
  ⟨by with_unfolding_all decide,
    c1_integer_solvers_feasible [60, 100, 120] [10, 20, 30] [1, 1, 2/3] 50
      [0, 1, 2] [2, 1, 0] [2] [0, 1, 2] [1, 1, 0] [1, 1, 0] 10000
      (by with_unfolding_all decide) (by with_unfolding_all decide) (by with_unfolding_all decide) (by with_unfolding_all decide) (by with_unfolding_all decide) (by with_unfolding_all decide)
      (by with_unfolding_all decide) (by with_unfolding_all decide) (by with_unfolding_all decide)⟩

/-- C3: for every instance and fractional input, the value returned by
rounding-and-repair is at least the greedy competitor's value and at least the
best single fitting item's value; when the repaired-and-filled candidate ties
or beats both, it is the candidate returned (non-strict `np.argmax`, compared
first). -/
theorem c3_rounding_tournament
    (x_frac valores pesos : List ℚ) (capacidade : ℚ)
    (ordemRem ordemAdd ordemGulosa : List Nat)
    (selecao_gulosa : Option (List ℚ)) :
    dot (gulosaResolvida valores pesos capacidade selecao_gulosa ordemGulosa)
        valores ≤
      (arredondamento_reparo x_frac valores pesos capacidade ordemRem ordemAdd
        selecao_gulosa ordemGulosa).valor ∧
      (melhor_item_que_cabe valores pesos capacidade).2.1 ≤
        (arredondamento_reparo x_frac valores pesos capacidade ordemRem ordemAdd
          selecao_gulosa ordemGulosa).valor ∧
      ((melhor_item_que_cabe valores pesos capacidade).2.1 ≤
          (arredCandidato x_frac valores pesos capacidade ordemRem ordemAdd).2.1 →
        dot (gulosaResolvida valores pesos capacidade selecao_gulosa ordemGulosa)
            valores ≤
          (arredCandidato x_frac valores pesos capacidade ordemRem ordemAdd).2.1 →
        (arredondamento_reparo x_frac valores pesos capacidade ordemRem ordemAdd
            selecao_gulosa ordemGulosa).selecao =
          (arredCandidato x_frac valores pesos capacidade ordemRem
            ordemAdd).1.map astype_int ∧
        (arredondamento_reparo x_frac valores pesos capacidade ordemRem ordemAdd
            selecao_gulosa ordemGulosa).valor =
          (arredCandidato x_frac valores pesos capacidade ordemRem
            ordemAdd).2.1) := by
  rcases mkTournament_value_ge
      (arredCandidato x_frac valores pesos capacidade ordemRem ordemAdd)
      (melhor_item_que_cabe valores pesos capacidade)
      (gulosaResolvida valores pesos capacidade selecao_gulosa ordemGulosa)
      valores pesos with ⟨hg, hs, _⟩
  refine ⟨hg, hs, ?_⟩
  intro hb hc
  rw [arredondamento_tie x_frac valores pesos capacidade ordemRem ordemAdd
    selecao_gulosa ordemGulosa hb hc]
  exact ⟨rfl, rfl⟩

theorem c3_rounding_tournament_witness :
    ((melhor_item_que_cabe [60, 100, 120] [10, 20, 30] 50).2.1 ≤
        (arredCandidato [1, 1, 2/3] [60, 100, 120] [10, 20, 30] 50
          [2, 1, 0] [2]).2.1) ∧
      (dot (gulosaResolvida [60, 100, 120] [10, 20, 30] 50 (some [1, 1, 0])
          [0, 1, 2]) [60, 100, 120] ≤
        (arredCandidato [1, 1, 2/3] [60, 100, 120] [10, 20, 30] 50
          [2, 1, 0] [2]).2.1) ∧
      ((arredondamento_reparo [1, 1, 2/3] [60, 100, 120] [10, 20, 30] 50
          [2, 1, 0] [2] (some [1, 1, 0]) [0, 1, 2]).selecao =
        (arredCandidato [1, 1, 2/3] [60, 100, 120] [10, 20, 30] 50
          [2, 1, 0] [2]).1.map astype_int ∧
      (arredondamento_reparo [1, 1, 2/3] [60, 100, 120] [10, 20, 30] 50
          [2, 1, 0] [2] (some [1, 1, 0]) [0, 1, 2]).valor =
        (arredCandidato [1, 1, 2/3] [60, 100, 120] [10, 20, 30] 50
          [2, 1, 0] [2]).2.1) :=
  ⟨by with_unfolding_all decide, by with_unfolding_all decide,
    (c3_rounding_tournament [1, 1, 2/3] [60, 100, 120] [10, 20, 30] 50
      [2, 1, 0] [2] [0, 1, 2] (some [1, 1, 0])).2.2 (by with_unfolding_all decide) (by with_unfolding_all decide)⟩

/-- C4: every committed local-search move (add or swap) strictly increases the
tracked value, the value sequence across iterations is non-decreasing, and the
returned value is at least the value of the (feasible, 0/1) seed. -/
theorem c4_local_search_monotone
    (valores pesos : List ℚ) (capacidade : ℚ) (seed : List ℚ)
    (ordemGulosa : List Nat) (max_iter : Nat)
    (hseed01 : Sel01 seed) (hseedfeas : dot seed pesos ≤ capacidade) :
    (∀ st st', blStep valores pesos capacidade st = some st' →
        st.valor < st'.valor) ∧
      (∀ (fuel : Nat) (st : BLState),
        st.valor ≤ (blLoop valores pesos capacidade fuel st).1.valor) ∧
      (avaliar seed valores pesos).1 ≤
        (busca_local valores pesos capacidade (some seed) ordemGulosa
          max_iter).1.valor := by
  refine ⟨fun st st' h => blStep_mono valores pesos capacidade st st' h,
    fun fuel st => blLoop_mono valores pesos capacidade fuel st, ?_⟩
  rcases busca_local_props valores pesos capacidade seed ordemGulosa max_iter
      hseed01 hseedfeas with ⟨_, _, _, _, hge, _, _⟩
  exact hge

theorem c4_local_search_monotone_witness :
    Sel01 [(1 : ℚ), 1, 0] ∧
      (avaliar [1, 1, 0] [60, 100, 120] [10, 20, 30]).1 ≤
        (busca_local [60, 100, 120] [10, 20, 30] 50 (some [1, 1, 0])
          [0, 1, 2] 10000).1.valor :=
  ⟨by with_unfolding_all decide,
    (c4_local_search_monotone [60, 100, 120] [10, 20, 30] 50 [1, 1, 0]
      [0, 1, 2] 10000 (by with_unfolding_all decide) (by with_unfolding_all decide)).2.2⟩

/-- C2, counterexample: on the instance with one item of value 1 and weight
`1e-13` and capacity `1e-13` (strictly positive weight, nonnegative value,
capacity ≥ 0), the relaxation's epsilon guard (`restante <= 1e-12`) fires
immediately and returns value 0, while the greedy takes the item (it fits)
and returns value 1 — so the relaxation value is *below* an integer solver's
value, refuting the claim as stated. -/
theorem c2_counterexample :
    (∀ q ∈ [(1 : ℚ) / 10 ^ 13], 0 < q) ∧
      (0 : ℚ) ≤ 1 / 10 ^ 13 ∧
      (∀ q ∈ [(1 : ℚ)], 0 ≤ q) ∧
      OrdemRazao [1] [1 / 10 ^ 13] [0] ∧
      (relaxacao_linear [1] [1 / 10 ^ 13] (1 / 10 ^ 13) [0]).2.1 <
        (gulosa_ratio [1] [1 / 10 ^ 13] (1 / 10 ^ 13) [0]).valor := by
  with_unfolding_all decide

/-- C2 (amended): when additionally every weight is at least the epsilon
`1e-12` and the relaxation scan never reaches a remaining capacity in
`(0, 1e-12]` (`rlOk`), the relaxation value is an upper bound on the value
returned by each integer solver (greedy, rounding-and-repair, local search,
invoked as the harness does). -/
theorem c2_relaxation_upper_bound
    (valores pesos x_frac : List ℚ) (capacidade : ℚ)
    (ordem ordemRem ordemAdd ordemGulosa : List Nat)
    (sg seed : List ℚ) (max_iter : Nat)
    (hw : ∀ q ∈ pesos, eps ≤ q)
    (hv : ∀ q ∈ valores, 0 ≤ q)
    (hcap : 0 ≤ capacidade)
    (hlenp : pesos.length = valores.length)
    (hlenx : x_frac.length = valores.length)
    (hord : OrdemRazao valores pesos ordem)
    (hok : rlOk pesos ordem capacidade = true)
    (hRem : ordemRem.Perm (idxUns (thresholdSel x_frac)))
    (hAdd : ordemAdd.Perm
      (idxZeros (arredAposReparo x_frac valores pesos capacidade ordemRem).1))
    (hsg01 : Sel01 sg) (hsgfeas : dot sg pesos ≤ capacidade)
    (hsglen : sg.length = valores.length)
    (hseed01 : Sel01 seed) (hseedfeas : dot seed pesos ≤ capacidade)
    (hseedlen : seed.length = valores.length) :
    (gulosa_ratio valores pesos capacidade ordem).valor ≤
        (relaxacao_linear valores pesos capacidade ordem).2.1 ∧
      (arredondamento_reparo x_frac valores pesos capacidade ordemRem ordemAdd
          (some sg) ordemGulosa).valor ≤
        (relaxacao_linear valores pesos capacidade ordem).2.1 ∧
      (busca_local valores pesos capacidade (some seed) ordemGulosa
          max_iter).1.valor ≤
        (relaxacao_linear valores pesos capacidade ordem).2.1 := by
  rw [relaxacao_valor_eq]
  refine ⟨?_, ?_, ?_⟩
  · rcases gulosa_feasible valores pesos capacidade ordem hord.1 hcap with
      ⟨g01, gfeas, glen⟩
    have gfeas' : dot (gulosa_ratio valores pesos capacidade ordem).selecao
        pesos ≤ capacidade := by
      rw [← (gulosa_valor_eq valores pesos capacidade ordem).2]
      exact gfeas
    rw [(gulosa_valor_eq valores pesos capacidade ordem).1]
    exact dot_le_rlValor valores pesos capacidade ordem _ hlenp glen g01 gfeas'
      hord hw hv hcap hok
  · rcases arredondamento_props x_frac valores pesos capacidade ordemRem ordemAdd
        (some sg) ordemGulosa hRem hAdd hcap hsg01 hsgfeas with
      ⟨a01, hvr, hpr, hple, _, _⟩
    have alen := arredondamento_selecao_length x_frac valores pesos capacidade
      ordemRem ordemAdd (some sg) ordemGulosa hRem hAdd hcap hlenx hsglen
    rw [hvr]
    exact dot_le_rlValor valores pesos capacidade ordem _ hlenp alen a01
      (hpr ▸ hple) hord hw hv hcap hok
  · rcases busca_local_props valores pesos capacidade seed ordemGulosa max_iter
        hseed01 hseedfeas with ⟨b01, hvr, hpr, hple, _, _, blen⟩
    rw [hvr]
    exact dot_le_rlValor valores pesos capacidade ordem _ hlenp
      (blen.trans hseedlen) b01 (hpr ▸ hple) hord hw hv hcap hok

theorem c2_relaxation_upper_bound_witness :
    rlOk [10, 20, 30] [0, 1, 2] 50 = true ∧
      ((gulosa_ratio [60, 100, 120] [10, 20, 30] 50 [0, 1, 2]).valor ≤
          (relaxacao_linear [60, 100, 120] [10, 20, 30] 50 [0, 1, 2]).2.1 ∧
        (arredondamento_reparo [1, 1, 2/3] [60, 100, 120] [10, 20, 30] 50
            [2, 1, 0] [2] (some [1, 1, 0]) [0, 1, 2]).valor ≤
          (relaxacao_linear [60, 100, 120] [10, 20, 30] 50 [0, 1, 2]).2.1 ∧
        (busca_local [60, 100, 120] [10, 20, 30] 50 (some [1, 1, 0])
            [0, 1, 2] 10000).1.valor ≤
          (relaxacao_linear [60, 100, 120] [10, 20, 30] 50 [0, 1, 2]).2.1) :=
  ⟨by with_unfolding_all decide,
    c2_relaxation_upper_bound [60, 100, 120] [10, 20, 30] [1, 1, 2/3] 50
      [0, 1, 2] [2, 1, 0] [2] [0, 1, 2] [1, 1, 0] [1, 1, 0] 10000
      (by with_unfolding_all decide) (by with_unfolding_all decide)
      (by with_unfolding_all decide) (by with_unfolding_all decide)
      (by with_unfolding_all decide) (by with_unfolding_all decide)
      (by with_unfolding_all decide) (by with_unfolding_all decide)
      (by with_unfolding_all decide) (by with_unfolding_all decide)
      (by with_unfolding_all decide) (by with_unfolding_all decide)
      (by with_unfolding_all decide) (by with_unfolding_all decide)
      (by with_unfolding_all decide)⟩

/-- C5: the greedy selection genuinely depends on the order chosen among
equal-ratio items.  On a 17-item instance in which every item has ratio 1
(values equal weights) and capacity 3, the input-order (stable) scan and a
scrambled scan — both valid outputs of the argsort contract, the second being
what an unstable partition-based sort can produce on an all-tied key array —
return different selections.  Hence the source's default `np.argsort`
(quicksort, not stable) does not implement the spec's required stable
tie-breaking. -/
theorem c5_tie_order_dependence :
    OrdemRazao [1, 2, 2, 2, 2, 2, 2, 2, 2, 2, 2, 2, 2, 2, 2, 2, 2]
        [1, 2, 2, 2, 2, 2, 2, 2, 2, 2, 2, 2, 2, 2, 2, 2, 2]
        [0, 1, 2, 3, 4, 5, 6, 7, 8, 9, 10, 11, 12, 13, 14, 15, 16] ∧
      OrdemRazao [1, 2, 2, 2, 2, 2, 2, 2, 2, 2, 2, 2, 2, 2, 2, 2, 2]
        [1, 2, 2, 2, 2, 2, 2, 2, 2, 2, 2, 2, 2, 2, 2, 2, 2]
        [0, 14, 13, 12, 11, 10, 9, 15, 8, 6, 5, 4, 3, 2, 1, 7, 16] ∧
      (gulosa_ratio [1, 2, 2, 2, 2, 2, 2, 2, 2, 2, 2, 2, 2, 2, 2, 2, 2]
          [1, 2, 2, 2, 2, 2, 2, 2, 2, 2, 2, 2, 2, 2, 2, 2, 2] 3
          [0, 1, 2, 3, 4, 5, 6, 7, 8, 9, 10, 11, 12, 13, 14, 15, 16]).selecao ≠
        (gulosa_ratio [1, 2, 2, 2, 2, 2, 2, 2, 2, 2, 2, 2, 2, 2, 2, 2, 2]
          [1, 2, 2, 2, 2, 2, 2, 2, 2, 2, 2, 2, 2, 2, 2, 2, 2] 3
          [0, 14, 13, 12, 11, 10, 9, 15, 8, 6, 5, 4, 3, 2, 1, 7, 16]).selecao := by
  with_unfolding_all decide

/-- C6: the local search performs at most `max_iter` iterations (for any
instance with strictly positive values and weights and any seed), and the
loop returns the state unchanged as soon as neither an add move nor a swap
move strictly improves the value (one final unproductive iteration, as in
the source). -/
theorem c6_termination
    (valores pesos : List ℚ) (capacidade : ℚ) (seed : Option (List ℚ))
    (ordemGulosa : List Nat) (max_iter : Nat)
    (hv : ∀ q ∈ valores, 0 < q) (hw : ∀ q ∈ pesos, 0 < q) :
    (busca_local valores pesos capacidade seed ordemGulosa max_iter).2 ≤
        max_iter ∧
      (∀ (st : BLState) (f : Nat),
        blStep valores pesos capacidade st = none →
          blLoop valores pesos capacidade (f + 1) st = (st, 1)) := by
  constructor
  · rcases seed with _ | s <;>
      · simp only [busca_local]
        exact blLoop_count valores pesos capacidade max_iter _
  · intro st f hno
    exact blLoop_localopt valores pesos capacidade st f hno

theorem c6_termination_witness :
    (∀ q ∈ [(60 : ℚ), 100, 120], 0 < q) ∧
      (busca_local [60, 100, 120] [10, 20, 30] 50 (some [1, 1, 0])
          [0, 1, 2] 10000).2 ≤ 10000 :=
  ⟨by with_unfolding_all decide,
    (c6_termination [60, 100, 120] [10, 20, 30] 50 (some [1, 1, 0]) [0, 1, 2]
      10000 (by with_unfolding_all decide) (by with_unfolding_all decide)).1⟩

/-- C7, counterexample: with one item of weight `1e-13` and capacity `1e-13`
(strictly positive weight), the item fully fits, yet the epsilon guard stops
the scan before taking it: the returned fractional vector is `[0]`, not `[1]`
— refuting "items are taken fully in ratio order while they fit" as stated. -/
theorem c7_counterexample :
    (∀ q ∈ [(1 : ℚ) / 10 ^ 13], 0 < q) ∧
      OrdemRazao [1] [1 / 10 ^ 13] [0] ∧
      getq [(1 : ℚ) / 10 ^ 13] 0 ≤ 1 / 10 ^ 13 ∧
      getq (relaxacao_linear [1] [1 / 10 ^ 13] (1 / 10 ^ 13) [0]).1 0 = 0 := by
  with_unfolding_all decide

/-- C7 (amended): the fractional vector returned by the relaxation has at
most one coordinate strictly between 0 and 1: either it is a 0/1 vector, or
there is exactly one fractional coordinate, every other coordinate is 0 or 1,
and the vector's total weight exactly fills the capacity (the fractional item
receives exactly `remaining/weight`); the total weight never exceeds the
capacity.  (Items are taken fully in ratio order only while the remaining
capacity also exceeds `1e-12`; a fitting item can be skipped below that.) -/
theorem c7_fractional_structure
    (valores pesos : List ℚ) (capacidade : ℚ) (ordem : List Nat)
    (hw : ∀ q ∈ pesos, 0 < q)
    (hcap : 0 ≤ capacidade)
    (hperm : ordem.Perm (List.range valores.length)) :
    (relaxacao_linear valores pesos capacidade ordem).1.length =
        valores.length ∧
      dot (relaxacao_linear valores pesos capacidade ordem).1 pesos ≤
        capacidade ∧
      (Sel01 (relaxacao_linear valores pesos capacidade ordem).1 ∨
        ∃ j, j < valores.length ∧
          (0 < getq (relaxacao_linear valores pesos capacidade ordem).1 j ∧
            getq (relaxacao_linear valores pesos capacidade ordem).1 j < 1) ∧
          (∀ i, i ≠ j →
            getq (relaxacao_linear valores pesos capacidade ordem).1 i = 0 ∨
              getq (relaxacao_linear valores pesos capacidade ordem).1 i = 1) ∧
          dot (relaxacao_linear valores pesos capacidade ordem).1 pesos =
            capacidade) := by
  have hx : (relaxacao_linear valores pesos capacidade ordem).1 =
      (rlLoop valores pesos ordem (List.replicate valores.length 0)
        capacidade 0).1 := rfl
  have hnd : ordem.Nodup := hperm.nodup_iff.mpr (List.nodup_range _)
  have hbound : ∀ i ∈ ordem,
      i < (List.replicate valores.length (0 : ℚ)).length := by
    intro i hi
    have := hperm.mem_iff.mp hi
    simpa using List.mem_range.mp this
  have hzero : ∀ i ∈ ordem, getq (List.replicate valores.length (0 : ℚ)) i = 0 :=
    fun i _ => getq_replicate _ _
  rcases rlLoop_inv valores pesos ordem (List.replicate valores.length 0)
      capacidade 0 hnd hbound hzero hcap (Sel01_replicate _) with
    ⟨hL, hR, hAcc, hDisj⟩
  rw [dot_replicate_zero] at hAcc
  rw [hx]
  refine ⟨by simpa using hL, by linarith, ?_⟩
  rcases hDisj with h | ⟨j, hj, hfrac, hothers, hrz⟩
  · exact Or.inl h
  · refine Or.inr ⟨j, by simpa using hj, hfrac, hothers, ?_⟩
    rw [hrz] at hAcc
    linarith

theorem c7_fractional_structure_witness :
    (0 : ℚ) ≤ 50 ∧
      ((relaxacao_linear [60, 100, 120] [10, 20, 30] 50 [0, 1, 2]).1.length =
          3 ∧
        dot (relaxacao_linear [60, 100, 120] [10, 20, 30] 50 [0, 1, 2]).1
            [10, 20, 30] ≤ 50 ∧
        (Sel01 (relaxacao_linear [60, 100, 120] [10, 20, 30] 50 [0, 1, 2]).1 ∨
          ∃ j, j < ([60, 100, 120] : List ℚ).length ∧
            (0 < getq (relaxacao_linear [60, 100, 120] [10, 20, 30] 50
                [0, 1, 2]).1 j ∧
              getq (relaxacao_linear [60, 100, 120] [10, 20, 30] 50
                [0, 1, 2]).1 j < 1) ∧
            (∀ i, i ≠ j →
              getq (relaxacao_linear [60, 100, 120] [10, 20, 30] 50
                  [0, 1, 2]).1 i = 0 ∨
                getq (relaxacao_linear [60, 100, 120] [10, 20, 30] 50
                  [0, 1, 2]).1 i = 1) ∧
            dot (relaxacao_linear [60, 100, 120] [10, 20, 30] 50 [0, 1, 2]).1
                [10, 20, 30] = 50)) :=
  ⟨by with_unfolding_all decide,
    c7_fractional_structure [60, 100, 120] [10, 20, 30] 50 [0, 1, 2]
      (by with_unfolding_all decide) (by with_unfolding_all decide)
      (by with_unfolding_all decide)⟩

/-- C8: when some instances fail, the harness catches the failure and
continues; the resulting table is exactly (a sorted permutation of) the rows
of the instances that succeeded — one row per success, failures excluded, the
run never aborted. -/
theorem c8_partial_failure_tolerance
    (resultados : List (Except String LinhaTabela)) :
    (executar_comparacao resultados).Perm
        (resultados.filterMap Except.toOption) ∧
      (executar_comparacao resultados).length =
        resultados.countP (fun r => r.toOption.isSome) := by
  have hperm := executar_comparacao_perm resultados
  exact ⟨hperm, by rw [hperm.length_eq, length_filterMap_eq_countP]⟩

/-- C9: no solver mutates its inputs.  Running each solver over an explicit
heap of arrays — with every in-place write of the source performed on the
array it targets, and every array-creating operation (`np.zeros`,
`.astype`, `.copy()`) allocating — every array that existed before the call
(in particular the value array, the weight array, and any supplied
fractional/seed selection) is unchanged afterwards. -/
theorem c9_solvers_do_not_mutate_inputs
    (m : Mem) (xR vR wR : Nat) (capacidade : ℚ)
    (ordem ordemRem ordemAdd ordemGulosa : List Nat)
    (sgR seedR : Option Nat) (max_iter : Nat) :
    ∀ r, r < m.length →
      lerA (gulosa_ratio_mem m vR wR capacidade ordem).1 r = lerA m r ∧
        lerA (relaxacao_linear_mem m vR wR capacidade ordem).1 r = lerA m r ∧
        lerA (arredondamento_reparo_mem m xR vR wR capacidade ordemRem ordemAdd
          sgR ordemGulosa).1 r = lerA m r ∧
        lerA (busca_local_mem m vR wR capacidade seedR ordemGulosa
          max_iter).1 r = lerA m r := by
  intro r hr
  exact ⟨(gulosa_ratio_mem_frame m vR wR capacidade ordem).1 r hr,
    relaxacao_linear_mem_frame m vR wR capacidade ordem r hr,
    arredondamento_reparo_mem_frame m xR vR wR capacidade ordemRem ordemAdd
      sgR ordemGulosa r hr,
    busca_local_mem_frame m vR wR capacidade seedR ordemGulosa max_iter r hr⟩

theorem c9_solvers_do_not_mutate_inputs_witness :
    (0 : Nat) <
        ([[60, 100, 120], [10, 20, 30], [1, 1, 2/3], [1, 1, 0]] : Mem).length ∧
      (lerA (gulosa_ratio_mem
            [[60, 100, 120], [10, 20, 30], [1, 1, 2/3], [1, 1, 0]] 0 1 50
            [0, 1, 2]).1 0 =
          lerA [[60, 100, 120], [10, 20, 30], [1, 1, 2/3], [1, 1, 0]] 0 ∧
        lerA (relaxacao_linear_mem
            [[60, 100, 120], [10, 20, 30], [1, 1, 2/3], [1, 1, 0]] 0 1 50
            [0, 1, 2]).1 0 =
          lerA [[60, 100, 120], [10, 20, 30], [1, 1, 2/3], [1, 1, 0]] 0 ∧
        lerA (arredondamento_reparo_mem
            [[60, 100, 120], [10, 20, 30], [1, 1, 2/3], [1, 1, 0]] 2 0 1 50
            [2, 1, 0] [2] (some 3) [0, 1, 2]).1 0 =
          lerA [[60, 100, 120], [10, 20, 30], [1, 1, 2/3], [1, 1, 0]] 0 ∧
        lerA (busca_local_mem
            [[60, 100, 120], [10, 20, 30], [1, 1, 2/3], [1, 1, 0]] 0 1 50
            (some 3) [0, 1, 2] 10000).1 0 =
          lerA [[60, 100, 120], [10, 20, 30], [1, 1, 2/3], [1, 1, 0]] 0) :=
  ⟨by with_unfolding_all decide,
    c9_solvers_do_not_mutate_inputs
      [[60, 100, 120], [10, 20, 30], [1, 1, 2/3], [1, 1, 0]] 2 0 1 50
      [0, 1, 2] [2, 1, 0] [2] [0, 1, 2] (some 3) (some 3) 10000 0
      (by with_unfolding_all decide)⟩

/-- C10: every solution record returned by greedy, rounding-and-repair, or
local search is internally consistent: its `valor` equals the dot product of
its selection with the value array and its `peso` equals the dot product with
the weight array, in exact arithmetic, including where the source maintains
them incrementally. -/
theorem c10_solution_records_consistent
    (valores pesos x_frac : List ℚ) (capacidade : ℚ)
    (ordem ordemRem ordemAdd ordemGulosa : List Nat)
    (sg seed : List ℚ) (max_iter : Nat)
    (hcap : 0 ≤ capacidade)
    (hRem : ordemRem.Perm (idxUns (thresholdSel x_frac)))
    (hAdd : ordemAdd.Perm
      (idxZeros (arredAposReparo x_frac valores pesos capacidade ordemRem).1))
    (hsg01 : Sel01 sg) (hsgfeas : dot sg pesos ≤ capacidade)
    (hseed01 : Sel01 seed) (hseedfeas : dot seed pesos ≤ capacidade) :
    ((gulosa_ratio valores pesos capacidade ordem).valor =
        dot (gulosa_ratio valores pesos capacidade ordem).selecao valores ∧
      (gulosa_ratio valores pesos capacidade ordem).peso =
        dot (gulosa_ratio valores pesos capacidade ordem).selecao pesos) ∧
      ((arredondamento_reparo x_frac valores pesos capacidade ordemRem ordemAdd
          (some sg) ordemGulosa).valor =
        dot (arredondamento_reparo x_frac valores pesos capacidade ordemRem
          ordemAdd (some sg) ordemGulosa).selecao valores ∧
      (arredondamento_reparo x_frac valores pesos capacidade ordemRem ordemAdd
          (some sg) ordemGulosa).peso =
        dot (arredondamento_reparo x_frac valores pesos capacidade ordemRem
          ordemAdd (some sg) ordemGulosa).selecao pesos) ∧
      ((busca_local valores pesos capacidade (some seed) ordemGulosa
          max_iter).1.valor =
        dot (busca_local valores pesos capacidade (some seed) ordemGulosa
          max_iter).1.selecao valores ∧
      (busca_local valores pesos capacidade (some seed) ordemGulosa
          max_iter).1.peso =
        dot (busca_local valores pesos capacidade (some seed) ordemGulosa
          max_iter).1.selecao pesos) := by
  refine ⟨gulosa_valor_eq valores pesos capacidade ordem, ?_, ?_⟩
  · rcases arredondamento_props x_frac valores pesos capacidade ordemRem ordemAdd
        (some sg) ordemGulosa hRem hAdd hcap hsg01 hsgfeas with
      ⟨_, hvr, hpr, _, _, _⟩
    exact ⟨hvr, hpr⟩
  · rcases busca_local_props valores pesos capacidade seed ordemGulosa max_iter
        hseed01 hseedfeas with ⟨_, hvr, hpr, _, _, _, _⟩
    exact ⟨hvr, hpr⟩

theorem c10_solution_records_consistent_witness :
    (0 : ℚ) ≤ 50 ∧
      (((gulosa_ratio [60, 100, 120] [10, 20, 30] 50 [0, 1, 2]).valor =
          dot (gulosa_ratio [60, 100, 120] [10, 20, 30] 50 [0, 1, 2]).selecao
            [60, 100, 120] ∧
        (gulosa_ratio [60, 100, 120] [10, 20, 30] 50 [0, 1, 2]).peso =
          dot (gulosa_ratio [60, 100, 120] [10, 20, 30] 50 [0, 1, 2]).selecao
            [10, 20, 30]) ∧
        ((arredondamento_reparo [1, 1, 2/3] [60, 100, 120] [10, 20, 30] 50
            [2, 1, 0] [2] (some [1, 1, 0]) [0, 1, 2]).valor =
          dot (arredondamento_reparo [1, 1, 2/3] [60, 100, 120] [10, 20, 30] 50
            [2, 1, 0] [2] (some [1, 1, 0]) [0, 1, 2]).selecao [60, 100, 120] ∧
        (arredondamento_reparo [1, 1, 2/3] [60, 100, 120] [10, 20, 30] 50
            [2, 1, 0] [2] (some [1, 1, 0]) [0, 1, 2]).peso =
          dot (arredondamento_reparo [1, 1, 2/3] [60, 100, 120] [10, 20, 30] 50
            [2, 1, 0] [2] (some [1, 1, 0]) [0, 1, 2]).selecao [10, 20, 30]) ∧
        ((busca_local [60, 100, 120] [10, 20, 30] 50 (some [1, 1, 0])
            [0, 1, 2] 10000).1.valor =
          dot (busca_local [60, 100, 120] [10, 20, 30] 50 (some [1, 1, 0])
            [0, 1, 2] 10000).1.selecao [60, 100, 120] ∧
        (busca_local [60, 100, 120] [10, 20, 30] 50 (some [1, 1, 0])
            [0, 1, 2] 10000).1.peso =
          dot (busca_local [60, 100, 120] [10, 20, 30] 50 (some [1, 1, 0])
            [0, 1, 2] 10000).1.selecao [10, 20, 30])) :=
  ⟨by with_unfolding_all decide,
    c10_solution_records_consistent [60, 100, 120] [10, 20, 30] [1, 1, 2/3] 50
      [0, 1, 2] [2, 1, 0] [2] [0, 1, 2] [1, 1, 0] [1, 1, 0] 10000
      (by with_unfolding_all decide) (by with_unfolding_all decide)
      (by with_unfolding_all decide) (by with_unfolding_all decide)
      (by with_unfolding_all decide) (by with_unfolding_all decide)
      (by with_unfolding_all decide)⟩

end EtapasPO4
